import Mathlib

/-!
Verification of the simplecalc expression evaluator (src/simplecalc/__init__.py)
against its natural-language specification.

The development shallowly embeds the calculator:
* Python `decimal` arithmetic under the default context (28 significant digits,
  ROUND_HALF_EVEN, traps on InvalidOperation / DivisionByZero / Overflow) is
  modelled by exact integer-coefficient pairs plus explicit rounding.
* Python machine integers are `Int` (exact, unbounded).
* binary64 floats (used by `math.hypot` and the constants `e`, `pi`) are
  modelled as the rationals they denote, with explicit round-to-nearest-even.
* the ply lexer (`_CalcLexer`) and the ply LALR parser (`_CalcParser`) are
  modelled by an executable scanner and a fuelled precedence-climbing parser
  that reproduces ply's conflict resolutions (shift on a shift/reduce conflict
  whose rule carries no precedence; earliest rule on a reduce/reduce conflict).
-/

namespace SimpleCalc

/-- Decimal digit count, fuelled helper (all arithmetic in this development is
plain `Nat`/`Int` so that every definition reduces inside the kernel). -/
def d10go (fuel n : ℕ) : ℕ :=
  match fuel with
  | 0 => 1
  | f + 1 => if n < 10 then 1 else d10go f (n / 10) + 1

/-- Number of decimal digits of a natural number; the coefficient 0 has one
digit, as in Python's `Decimal`. -/
def digits10 (n : ℕ) : ℕ := d10go n n

/-- Round `a / b` (for `b > 0`) to the nearest integer, ties to even:
the ROUND_HALF_EVEN mode of the default decimal context. -/
def halfEvenDiv (a b : ℤ) : ℤ :=
  let q := Int.fdiv a b
  let r := a - q * b
  if 2 * r < b then q
  else if b < 2 * r then q + 1
  else if q % 2 = 0 then q else q + 1

/-- The distinct failure kinds the calculator can raise.  Each constructor
corresponds to one raise site or exception class of the source. -/
inductive PyErr where
  /-- `_CalcLexer.t_error`: `ValueError("Illegal character %r")`. -/
  | lexErr (c : Char)
  /-- `_CalcParser.p_error`: `ValueError("Syntax error in input!")`. -/
  | synErr
  /-- `_CalcParser._func_calling`: `ValueError("Unknown %r function")`. -/
  | unknownFunction (f : String)
  /-- `_CalcParser.p_name_value`: `ValueError("Unknown %r value")`. -/
  | unknownValue (v : String)
  /-- `ValueError` from the factorial domain checks. -/
  | domainErr
  /-- `OverflowError` from `better_factorial`, `decimal.Overflow`, or float conversion. -/
  | overflowErr
  /-- `decimal.DivisionByZero` (trapped by the default context). -/
  | divByZero
  /-- `decimal.InvalidOperation` (trapped by the default context). -/
  | invalidOp
  /-- `TypeError` (wrong argument count, or an argument type an underlying
  routine rejects, e.g. `math.factorial` applied to a `Decimal`). -/
  | typeErr
  /-- Registry entries backed by double-precision libm or decimal
  transcendental routines that no claim evaluates are left unmodelled. -/
  | unmodelled
  /-- Internal marker: parser fuel exhausted.  Never produced at the fuel
  `calcTokens` supplies (proved below). -/
  | fuelOut
deriving DecidableEq, Repr

/-- A Python `Decimal` value `c * 10 ^ e` (sign folded into the coefficient).
NaNs and infinities never arise because the default context traps
InvalidOperation, DivisionByZero and Overflow, which we surface as errors. -/
structure Dec where
  c : ℤ
  e : ℤ
deriving DecidableEq, Repr

/-- The exact rational value of a decimal (specification level only). -/
def Dec.val (d : Dec) : ℚ := (d.c : ℚ) * (10 : ℚ) ^ d.e

/-- Numerator of the exact value of a decimal over `Dec.qd`. -/
def Dec.qn (d : Dec) : ℤ := if 0 ≤ d.e then d.c * 10 ^ d.e.toNat else d.c

/-- Positive denominator of the exact value of a decimal. -/
def Dec.qd (d : Dec) : ℤ := if 0 ≤ d.e then 1 else 10 ^ (-d.e).toNat

/-- Emax of the default decimal context. -/
def EMAX : ℤ := 999999

/-- Raise `decimal.Overflow` when the adjusted exponent exceeds Emax.
(Emin/subnormal handling is omitted: no claim involves magnitudes below
`1e-999999`.) -/
def checkOverflow (d : Dec) : Except PyErr Dec :=
  if EMAX < d.e + (digits10 d.c.natAbs : ℤ) - 1 then .error .overflowErr else .ok d

/-- Round an exact decimal result to the context: at most 28 significant
digits, ties to even. -/
def roundDec (d : Dec) : Except PyErr Dec :=
  let nd := digits10 d.c.natAbs
  if nd ≤ 28 then checkOverflow d
  else
    let drop : ℕ := nd - 28
    let c1 := halfEvenDiv d.c (10 ^ drop)
    if digits10 c1.natAbs ≤ 28 then checkOverflow ⟨c1, d.e + drop⟩
    else checkOverflow ⟨c1 / 10, d.e + drop + 1⟩

/-- For `num ≠ 0 `, `den > 0`: the `k` with `10^(k-1) ≤ |num/den| < 10^k`. -/
def fracDexp (num den : ℤ) : ℤ :=
  let k0 : ℤ := (digits10 num.natAbs : ℤ) - (digits10 den.natAbs : ℤ)
  if den * 10 ^ (max k0 0).toNat ≤ (num.natAbs : ℤ) * 10 ^ (max (-k0) 0).toNat
  then k0 + 1 else k0

/-- The correctly rounded 28-significant-digit decimal of `num / den`
(`den > 0`): the inexact case of context division and power. -/
def roundFrac (num den : ℤ) : Except PyErr Dec :=
  if num = 0 then .ok ⟨0, 0⟩
  else
    let e := fracDexp num den - 28
    let c := halfEvenDiv (num * 10 ^ (max (-e) 0).toNat) (den * 10 ^ (max e 0).toNat)
    if digits10 c.natAbs ≤ 28 then checkOverflow ⟨c, e⟩
    else checkOverflow ⟨c / 10, e + 1⟩

/-- Remove trailing zero digits from a coefficient (fuelled helper). -/
def stripZerosAux : ℕ → ℤ → ℤ → Dec
  | 0, c, e => ⟨c, e⟩
  | f + 1, c, e => if c ≠ 0 ∧ c % 10 = 0 then stripZerosAux f (c / 10) (e + 1) else ⟨c, e⟩

/-- The representation of `c * 10 ^ e` whose coefficient has no trailing zeros. -/
def stripZeros (c e : ℤ) : Dec := stripZerosAux (digits10 c.natAbs) c e

/-- Extract the exponent of `p` in `n` (fuelled helper). -/
def stripPAux (p : ℕ) : ℕ → ℕ → ℕ × ℕ
  | 0, n => (0, n)
  | f + 1, n =>
    if n % p = 0 ∧ n ≠ 0 ∧ 1 < p then
      let r := stripPAux p f (n / p)
      (r.1 + 1, r.2)
    else (0, n)

/-- `factorOut p n = (k, m)` with `n = p ^ k * m` and `p` not dividing `m`. -/
def factorOut (p n : ℕ) : ℕ × ℕ := stripPAux p n n

/-- Reduce a fraction to lowest terms with a positive denominator
(`den ≠ 0` expected). -/
def fracReduce (num den : ℤ) : ℤ × ℤ :=
  let s : ℤ := if den < 0 then -1 else 1
  let n1 := s * num
  let d1 := s * den
  let g : ℤ := Nat.gcd n1.natAbs d1.natAbs
  if g = 0 then (n1, d1) else (n1 / g, d1 / g)

/-- Context division of the exact nonzero fraction `num / den` with ideal
exponent `ideal`: the exact quotient when it fits in 28 significant digits
(with the exponent moved as close to the ideal exponent as possible),
otherwise the correctly rounded 28-digit result. -/
def decDivFrac (num den : ℤ) (ideal : ℤ) : Except PyErr Dec :=
  let r := fracReduce num den
  let f2 := factorOut 2 r.2.natAbs
  let f5 := factorOut 5 f2.2
  if f5.2 = 1 then
    let k := max f2.1 f5.1
    let c0 : ℤ := r.1 * (2 : ℤ) ^ (k - f2.1) * (5 : ℤ) ^ (k - f5.1)
    let m := stripZeros c0 (-(k : ℤ))
    if digits10 m.c.natAbs ≤ 28 then
      let pad : ℤ := max 0 (min (m.e - ideal) ((28 : ℤ) - (digits10 m.c.natAbs : ℤ)))
      checkOverflow ⟨m.c * 10 ^ pad.toNat, m.e - pad⟩
    else roundFrac r.1 r.2
  else roundFrac r.1 r.2

/-- `Decimal.__truediv__` under the default context. -/
def decDiv (a b : Dec) : Except PyErr Dec :=
  if b.c = 0 then
    if a.c = 0 then .error .invalidOp else .error .divByZero
  else if a.c = 0 then .ok ⟨0, a.e - b.e⟩
  else decDivFrac (a.qn * b.qd) (a.qd * b.qn) (a.e - b.e)

/-- `Decimal.__add__` under the default context: exact aligned sum, rounded. -/
def decAdd (a b : Dec) : Except PyErr Dec :=
  let e := min a.e b.e
  roundDec ⟨a.c * 10 ^ (a.e - e).toNat + b.c * 10 ^ (b.e - e).toNat, e⟩

/-- `Decimal.__sub__` under the default context. -/
def decSub (a b : Dec) : Except PyErr Dec :=
  let e := min a.e b.e
  roundDec ⟨a.c * 10 ^ (a.e - e).toNat - b.c * 10 ^ (b.e - e).toNat, e⟩

/-- `Decimal.__mul__` under the default context: exact product, rounded. -/
def decMul (a b : Dec) : Except PyErr Dec := roundDec ⟨a.c * b.c, a.e + b.e⟩

/-- The integer value of a decimal, when it is integral. -/
def decIsInt (b : Dec) : Option ℤ :=
  if b.qn % b.qd = 0 then some (b.qn / b.qd) else none

/-- An exact fraction as a decimal: minimal-digit exact representation when it
fits in 28 significant digits, else correctly rounded (used for the results of
`power` with a negative integral exponent). -/
def decFromFracExact (num den : ℤ) : Except PyErr Dec :=
  let r := fracReduce num den
  let f2 := factorOut 2 r.2.natAbs
  let f5 := factorOut 5 f2.2
  if f5.2 = 1 then
    let k := max f2.1 f5.1
    let c0 : ℤ := r.1 * (2 : ℤ) ^ (k - f2.1) * (5 : ℤ) ^ (k - f5.1)
    let m := stripZeros c0 (-(k : ℤ))
    if digits10 m.c.natAbs ≤ 28 then checkOverflow m else roundFrac r.1 r.2
  else roundFrac r.1 r.2

/-- `Decimal.__pow__` / `Context.power` under the default context.  Integral
exponents are exact-then-rounded (a negative exponent takes the reciprocal of
the exact power); a non-integral exponent with a negative or zero base traps;
a non-integral exponent with a positive base is computed by decimal
`exp`/`ln`, which no claim evaluates, so it is left unmodelled. -/
def decPow (a b : Dec) : Except PyErr Dec :=
  match decIsInt b with
  | some n =>
    if a.c = 0 then
      if 0 < n then .ok ⟨0, 0⟩
      else if n = 0 then .error .invalidOp
      else .error .divByZero
    else if 0 ≤ n then roundDec ⟨a.c ^ n.toNat, a.e * n⟩
    else decFromFracExact (a.qd ^ (-n).toNat) (a.qn ^ (-n).toNat)
  | none =>
    if a.c = 0 then
      if 0 < b.c then .ok ⟨0, 0⟩ else .error .divByZero
    else if a.c < 0 then .error .invalidOp
    else .error .unmodelled

/-! ## binary64 model (for `math.hypot` and the float constants)

A binary64 value is represented exactly as a pair `(m, e) : ℤ × ℤ` denoting
`m * 2 ^ e`. -/

/-- Bit count, fuelled helper. -/
def blgo (fuel n : ℕ) : ℕ :=
  match fuel with
  | 0 => 0
  | f + 1 => if n = 0 then 0 else blgo f (n / 2) + 1

/-- Number of bits of a natural (`bitLen 0 = 0`; `2^(bitLen n - 1) ≤ n <
2^(bitLen n)` for `n ≥ 1`). -/
def bitLen (n : ℕ) : ℕ := blgo n n

/-- For `num ≠ 0`, `den > 0`: the `e` with `2^e ≤ |num/den| < 2^(e+1)`. -/
def fracLog2 (num den : ℤ) : ℤ :=
  let e0 : ℤ := (bitLen num.natAbs : ℤ) - (bitLen den.natAbs : ℤ)
  if den * 2 ^ (max e0 0).toNat ≤ (num.natAbs : ℤ) * 2 ^ (max (-e0) 0).toNat
  then e0 else e0 - 1

/-- Round `num / den` (`den > 0`) to the nearest binary64 value, ties to
even, without the overflow check. -/
def floatRound (num den : ℤ) : ℤ × ℤ :=
  if num = 0 then (0, 0)
  else
    let s : ℤ := if num < 0 then -1 else 1
    let na : ℤ := num.natAbs
    let e := fracLog2 num den
    if e < -1022 then
      (s * halfEvenDiv (na * ((2 ^ 1074 : ℕ) : ℤ)) den, -1074)
    else
      let sh := (52 : ℤ) - e
      (s * halfEvenDiv (na * 2 ^ (max sh 0).toNat) (den * 2 ^ (max (-sh) 0).toNat),
        e - 52)

/-- `|m * 2 ^ e| ≥ 2 ^ 1024`: the float overflow threshold (the float
exponents produced here are all ≥ -1074). -/
def floatTooBig (m e : ℤ) : Bool :=
  2 ^ 2098 ≤ m.natAbs * 2 ^ (e + 1074).toNat

/-- `float(num / den)`: nearest binary64, `OverflowError` when out of range. -/
def pyFloat (num den : ℤ) : Except PyErr (ℤ × ℤ) :=
  let r := floatRound num den
  if floatTooBig r.1 r.2 then .error .overflowErr else .ok r

/-- Integer square root, Newton iteration (fuelled helper; the iterate
decreases until it reaches the floor square root). -/
def isqrtGo (fuel : ℕ) (n x : ℕ) : ℕ :=
  match fuel with
  | 0 => x
  | f + 1 =>
    let x1 := (x + n / x) / 2
    if x ≤ x1 then x else isqrtGo f n x1

/-- `⌊√n⌋`. -/
def isqrt (n : ℕ) : ℕ := if n ≤ 1 then n else isqrtGo n n n

/-- `math.hypot` with one float argument returns exactly its absolute value. -/
def pyHypot1 (x : ℤ × ℤ) : ℤ × ℤ := (x.1.natAbs, x.2)

/-- `math.hypot` with two float arguments (the CPython 3.8+ high-accuracy
algorithm), modelled as the correctly rounded binary64 square root of the
exact sum of squares `x^2 + y^2 = S * 2 ^ t`. -/
def pyHypot2 (x y : ℤ × ℤ) : Except PyErr (ℤ × ℤ) :=
  if x.1 = 0 ∧ y.1 = 0 then .ok (0, 0)
  else
    let t := min (2 * x.2) (2 * y.2)
    let S : ℤ := x.1 ^ 2 * 2 ^ (2 * x.2 - t).toNat + y.1 ^ 2 * 2 ^ (2 * y.2 - t).toNat
    let es : ℤ := Int.fdiv ((bitLen S.natAbs : ℤ) - 1 + t) 2
    let sh : ℤ := t + 104 - 2 * es
    let n : ℤ := isqrt (S.natAbs * 2 ^ (max sh 0).toNat / 2 ^ (max (-sh) 0).toNat)
    let lhs : ℤ := 4 * S * 2 ^ (max sh 0).toNat
    let rhs : ℤ := (2 * n + 1) ^ 2 * 2 ^ (max (-sh) 0).toNat
    let m : ℤ :=
      if lhs < rhs then n
      else if rhs < lhs then n + 1
      else if n % 2 = 0 then n else n + 1
    if floatTooBig m (es - 52) then .error .overflowErr else .ok (m, es - 52)

/-- `Decimal(float)`: exact conversion of the binary64 value `m * 2 ^ e`.
CPython first reduces the value to the lowest-terms fraction `n / 2 ^ k`
(`float.as_integer_ratio`) and then forms coefficient `n * 5 ^ k` with
exponent `-k` (an integral value gets exponent 0). -/
def decOfFloat (m e : ℤ) : Dec :=
  if m = 0 then ⟨0, 0⟩
  else
    let s : ℤ := if m < 0 then -1 else 1
    let r := factorOut 2 m.natAbs
    let e1 := e + r.1
    if 0 ≤ e1 then ⟨s * r.2 * 2 ^ e1.toNat, 0⟩ else ⟨s * r.2 * 5 ^ (-e1).toNat, e1⟩

/-! ## The Python value model -/

/-- A runtime value of the evaluator: a machine integer (from integer literals
and postfix factorial), a `Decimal`, or a Boolean (from comparisons only). -/
inductive PyVal where
  | intv (n : ℤ)
  | decv (d : Dec)
  | boolv (b : Bool)
deriving DecidableEq, Repr

/-- The exact rational value (specification level only). -/
def PyVal.toQ : PyVal → ℚ
  | .intv n => n
  | .decv d => d.val
  | .boolv b => if b then 1 else 0

/-- The exact value of an operand as an integer fraction with a positive
denominator; Python numeric comparisons compare these exact values, and
`bool` is an `int` subtype with values 0 and 1. -/
def valFrac : PyVal → ℤ × ℤ
  | .intv n => (n, 1)
  | .decv d => (d.qn, d.qd)
  | .boolv b => (if b then 1 else 0, 1)

/-- `Decimal(x)` for an operand: exact conversion. -/
def PyVal.toDec : PyVal → Dec
  | .intv n => ⟨n, 0⟩
  | .decv d => d
  | .boolv b => ⟨if b then 1 else 0, 0⟩

/-- Operands on which Python performs exact machine-integer arithmetic. -/
def isIntLike : PyVal → Option ℤ
  | .intv n => some n
  | .boolv b => some (if b then 1 else 0)
  | .decv _ => none

/-- `p[1] + p[3]`: exact unbounded integer addition when both operands are
ints, context-rounded decimal addition otherwise. -/
def pyAdd (a b : PyVal) : Except PyErr PyVal :=
  match isIntLike a, isIntLike b with
  | some m, some n => .ok (.intv (m + n))
  | _, _ => do .ok (.decv (← decAdd a.toDec b.toDec))

/-- `p[1] - p[3]`. -/
def pySub (a b : PyVal) : Except PyErr PyVal :=
  match isIntLike a, isIntLike b with
  | some m, some n => .ok (.intv (m - n))
  | _, _ => do .ok (.decv (← decSub a.toDec b.toDec))

/-- `p[1] * p[3]`. -/
def pyMul (a b : PyVal) : Except PyErr PyVal :=
  match isIntLike a, isIntLike b with
  | some m, some n => .ok (.intv (m * n))
  | _, _ => do .ok (.decv (← decMul a.toDec b.toDec))

/-- `p[1] / Decimal(p[3])`: always decimal division. -/
def pyDiv (a b : PyVal) : Except PyErr PyVal := do
  .ok (.decv (← decDiv a.toDec b.toDec))

/-- `p[1] ** Decimal(p[3])`: always decimal power (an int left operand defers
to `Decimal.__rpow__`). -/
def pyPow (a b : PyVal) : Except PyErr PyVal := do
  .ok (.decv (← decPow a.toDec b.toDec))

/-- `-p[2]`: exact for ints; `Decimal.__neg__` applies context rounding. -/
def pyNeg (a : PyVal) : Except PyErr PyVal :=
  match a with
  | .intv n => .ok (.intv (-n))
  | .boolv b => .ok (.intv (-(if b then 1 else 0)))
  | .decv d => do .ok (.decv (← roundDec ⟨-d.c, d.e⟩))

/-- `MAX_FACTORIAL_INP`. -/
def MAX_FACTORIAL_INP : ℤ := 100

/-- `better_factorial` followed by `math.factorial`: the cap check (`n >
MAX_FACTORIAL_INP`) runs first, then the integrality check (`int(n) != n`,
i.e. the denominator does not divide the numerator); `math.factorial` rejects
negative integers with a `ValueError` and non-int arguments (a `Decimal` that
passed the integrality check) with a `TypeError`. -/
def pyFactorial (v : PyVal) : Except PyErr PyVal :=
  let x := valFrac v
  if MAX_FACTORIAL_INP * x.2 < x.1 then .error .overflowErr
  else if x.1 % x.2 ≠ 0 then .error .domainErr
  else
    match v with
    | .decv _ => .error .typeErr
    | _ =>
      let n := x.1 / x.2
      if n < 0 then .error .domainErr
      else .ok (.intv (Nat.factorial n.toNat))

/-! ## The function and constant registries -/

/-- The keys of the `FUNCTIONS` dictionary. -/
def FUNCTION_NAMES : List String :=
  ["abs", "acos", "acosh", "asin", "asinh", "atan", "atanh", "ceil", "cos",
   "cosh", "degrees", "distance", "exp", "factorial", "floor", "gamma",
   "hypot", "int", "ln", "log", "log10", "log2", "pow", "radians", "round",
   "sin", "sinh", "sqrt", "tan", "tanh", "trunc"]

/-- `math.hypot` applied to the (float conversions of the) argument list; a
wrong argument count raises `TypeError` in CPython versions before 3.8 and is
unreachable through the grammar otherwise. -/
def hypotCall (args : List PyVal) : Except PyErr (ℤ × ℤ) :=
  match args with
  | [x] => do .ok (pyHypot1 (← pyFloat (valFrac x).1 (valFrac x).2))
  | [x, y] => do
    pyHypot2 (← pyFloat (valFrac x).1 (valFrac x).2)
      (← pyFloat (valFrac y).1 (valFrac y).2)
  | _ => .error .typeErr

/-- `_CalcParser._func_calling`: registry lookup (`KeyError` becomes the
unknown-function `ValueError`), application, and the final `Decimal(...)`
wrap (exact for a float result).  Registry entries other than
`hypot`/`distance` call double-precision libm or decimal transcendental
routines; no claim evaluates them, so they are left unmodelled. -/
def funcCall (name : String) (args : List PyVal) : Except PyErr PyVal :=
  if name ∈ FUNCTION_NAMES then
    if name = "hypot" ∨ name = "distance" then do
      let fv ← hypotCall args
      .ok (.decv (decOfFloat fv.1 fv.2))
    else .error .unmodelled
  else .error (.unknownFunction name)

/-- The numerator of a 40-digit decimal approximation of Euler's number over
`10 ^ 39`, accurate far beyond binary64 precision. -/
def E_NUM : ℤ := 2718281828459045235360287471352662497757

/-- The numerator of a 40-digit decimal approximation of pi over `10 ^ 39`,
accurate far beyond binary64 precision. -/
def PI_NUM : ℤ := 3141592653589793238462643383279502884197

/-- `Decimal(math.e)`: the exact decimal form of the binary64 nearest to e. -/
def E_DEC : Dec := decOfFloat (floatRound E_NUM (10 ^ 39)).1 (floatRound E_NUM (10 ^ 39)).2

/-- `Decimal(math.pi)`: the exact decimal form of the binary64 nearest to pi. -/
def PI_DEC : Dec := decOfFloat (floatRound PI_NUM (10 ^ 39)).1 (floatRound PI_NUM (10 ^ 39)).2

/-- The `ALLOWED_VALUES` constant registry. -/
def ALLOWED_VALUES : List (String × Dec) := [("e", E_DEC), ("pi", PI_DEC)]

/-- Constant lookup (`p_name_value`). -/
def lookupConst (s : String) : Option Dec := (ALLOWED_VALUES.lookup s)

/-! ## The lexer (`_CalcLexer`)

ply builds one master pattern: function rules first in definition order
(`t_NUMBER`, then `t_NAME`), then the string rules ordered by decreasing
pattern length, and the first alternative matching at the current position
wins. -/

/-- The comparison operator a comparison token denotes.  `p_comparison`
branches on the lexeme: `=`, `==`, `===` are equality, `!=`, `<>` are
inequality. -/
inductive CmpOp where
  | lt | gt | le | ge | eq | ne
deriving DecidableEq, Repr

/-- The token alphabet of `_CalcLexer`. -/
inductive Tok where
  | num (v : PyVal)
  | name (s : String)
  | plus | minus | mult | divide | pow | fact
  | lparen | rparen | comma
  | cmp (op : CmpOp)
deriving DecidableEq, Repr

/-- A `\w` word character (ASCII model; all registry names are ASCII). -/
def wordChar (c : Char) : Bool := c.isAlpha || c.isDigit || c = '_'

/-- The numeric value of a digit string (empty gives 0). -/
def digitsVal (ds : List Char) : ℕ := ds.foldl (fun a c => 10 * a + (c.toNat - 48)) 0

/-- `t_NUMBER`'s semantic action: the literal is evaluated immediately.
The integer part is parsed as a machine int; a nonempty fractional part adds
`Decimal(fracpart) / 10 ** len(fracpart)` (a context division followed by a
context addition); an exponent multiplies by `Decimal(10) ** exp` (a context
power followed by a context multiplication). -/
def numLitValue (ip : List Char) (fp : Option (List Char)) (ex : Option ℤ) :
    Except PyErr PyVal := do
  let r0 : PyVal := .intv (digitsVal ip)
  let r1 ← match fp with
    | some fd =>
      if fd.isEmpty then pure r0
      else do
        let frac ← decDiv ⟨digitsVal fd, 0⟩ ⟨10 ^ fd.length, 0⟩
        pyAdd r0 (.decv frac)
    | none => pure r0
  match ex with
  | some n => do
    let p ← decPow ⟨10, 0⟩ ⟨n, 0⟩
    pyMul r1 (.decv p)
  | none => pure r1

/-- The lookahead `(?=\d|\.\d|\,\d)` of `RE_NUMBER`. -/
def numberLookahead : List Char → Bool
  | [] => false
  | c :: rest =>
    c.isDigit ||
      ((c = '.' || c = ',') && (match rest with | d :: _ => d.isDigit | [] => false))

/-- The optional fractional group `((\.|\,)(?P<frac>\d*))?`:
returns the captured digits and the number of characters consumed. -/
def fracScan : List Char → Option (List Char) × ℕ
  | c :: rest =>
    if c = '.' ∨ c = ',' then
      let fd := rest.takeWhile Char.isDigit
      (some fd, fd.length + 1)
    else (none, 0)
  | [] => (none, 0)

/-- The optional exponent group `((e|E)(?P<exp>[-+]?\d+))?`: at least one
digit is required, otherwise the group matches nothing. -/
def expScan : List Char → Option ℤ × ℕ
  | c :: rest =>
    if c = 'e' ∨ c = 'E' then
      match rest with
      | s :: rest2 =>
        if s = '+' then
          let ed := rest2.takeWhile Char.isDigit
          if ed.isEmpty then (none, 0) else (some (digitsVal ed), ed.length + 2)
        else if s = '-' then
          let ed := rest2.takeWhile Char.isDigit
          if ed.isEmpty then (none, 0) else (some (-(digitsVal ed : ℤ)), ed.length + 2)
        else
          let ed := rest.takeWhile Char.isDigit
          if ed.isEmpty then (none, 0) else (some (digitsVal ed), ed.length + 1)
      | [] => (none, 0)
    else (none, 0)
  | [] => (none, 0)

/-- `RE_NUMBER` matched at the head of `cs`: the evaluated literal and the
number of characters consumed (always positive when the lookahead holds). -/
def matchNumber (cs : List Char) : Option (Except PyErr PyVal × ℕ) :=
  if numberLookahead cs then
    let ip := cs.takeWhile Char.isDigit
    let cs1 := cs.drop ip.length
    let fr := fracScan cs1
    let cs2 := cs1.drop fr.2
    let ex := expScan cs2
    some (numLitValue ip fr.1 ex.1, ip.length + fr.2 + ex.2)
  else none

/-- The string-rule portion of the master pattern, tried after `t_NUMBER` and
`t_NAME`, longest patterns first. -/
def scanOp : List Char → Except PyErr (Tok × ℕ)
  | '!' :: '=' :: _ => .ok (.cmp .ne, 2)
  | '<' :: '>' :: _ => .ok (.cmp .ne, 2)
  | '=' :: '=' :: '=' :: _ => .ok (.cmp .eq, 3)
  | '=' :: '=' :: _ => .ok (.cmp .eq, 2)
  | '=' :: _ => .ok (.cmp .eq, 1)
  | '<' :: '=' :: _ => .ok (.cmp .le, 2)
  | '>' :: '=' :: _ => .ok (.cmp .ge, 2)
  | '*' :: '*' :: _ => .ok (.pow, 2)
  | '!' :: _ => .ok (.fact, 1)
  | '+' :: _ => .ok (.plus, 1)
  | '-' :: _ => .ok (.minus, 1)
  | '*' :: _ => .ok (.mult, 1)
  | '/' :: _ => .ok (.divide, 1)
  | '(' :: _ => .ok (.lparen, 1)
  | ')' :: _ => .ok (.rparen, 1)
  | ',' :: _ => .ok (.comma, 1)
  | '<' :: _ => .ok (.cmp .lt, 1)
  | '>' :: _ => .ok (.cmp .gt, 1)
  | c :: _ => .error (.lexErr c)
  | [] => .error .synErr

/-- One step of the lexer at the current position: skipped whitespace
(`t_ignore`), or one token, with the number of characters consumed. -/
def scanOne (cs : List Char) : Except PyErr (Option Tok × ℕ) :=
  match matchNumber cs with
  | some (v, len) =>
    match v with
    | .ok val => .ok (some (.num val), len)
    | .error e => .error e
  | none =>
    match cs with
    | [] => .error .synErr
    | c :: _ =>
      if c = ' ' ∨ c = '\t' then .ok (none, 1)
      else if wordChar c then
        let w := cs.takeWhile wordChar
        .ok (some (.name ⟨w⟩), w.length)
      else (scanOp cs).map (fun p => (some p.1, p.2))

/-- The full token stream (fuelled; every step consumes at least one
character, so fuel `cs.length` suffices). -/
def lexAll : ℕ → List Char → Except PyErr (List Tok)
  | _, [] => .ok []
  | 0, _ :: _ => .error .fuelOut
  | f + 1, c :: cs => do
    let (t, len) ← scanOne (c :: cs)
    let rest ← lexAll f ((c :: cs).drop (max len 1))
    match t with
    | some tok => .ok (tok :: rest)
    | none => .ok rest

/-- Tokenize a character list. -/
def lexChars (cs : List Char) : Except PyErr (List Tok) := lexAll cs.length cs

/-! ## The parser (`_CalcParser`)

The grammar is evaluated during reduction by ply's LALR engine with

  precedence = (left PLUS MINUS) < (left MULT DIVIDE)
             < (left FACTORIAL POW) < (right UPLUS UMINUS)

and these conflict resolutions, which the fuelled precedence-climbing parser
below reproduces:

* a shift/reduce conflict whose reduction rule carries no precedence (all the
  `NAME ...` call rules end in the precedence-less terminal NAME) is resolved
  as a shift, so a NAME absorbs the longest expressions that can follow it;
* the reduce/reduce conflict between `expression : LPAREN expression RPAREN`
  and `expression : NAME LPAREN expression RPAREN` is resolved in favour of
  the earlier rule (`p_factor_expr` precedes `p_name_function` in the file),
  so after `NAME ( expr )` the parenthesized group is an atom of a still
  growing argument expression;
* the reduce/reduce conflict between binary `expression PLUS expression` and
  unary `PLUS expression` after `NAME expr + expr` is resolved in favour of
  the earlier binary rule, so `+`/`-` after a first argument continue that
  argument rather than starting a second one.

Comparisons (`bool : expression CMP expression`) occur only at top level:
the closure of `( . expression )` and of the argument positions contains no
`bool` item, so an expression parse never consumes a comparison token. -/

/-- Tokens that can start an `expression` (the closure items of ply's
`NAME . expression` states shift exactly these). -/
def exprStart : Tok → Bool
  | .num _ => true
  | .name _ => true
  | .lparen => true
  | .plus => true
  | .minus => true
  | _ => false

mutual

/-- Parse one expression whose binary/postfix operators all have precedence
level at least `mn` (1 = PLUS/MINUS, 2 = MULT/DIVIDE, 3 = FACTORIAL/POW,
4 = unary sign). -/
def parseP (fuel mn : ℕ) (ts : List Tok) : Except PyErr (PyVal × List Tok) :=
  match fuel, ts with
  | 0, _ => .error .fuelOut
  | f + 1, ts =>
    match ts with
    | [] => .error .synErr
    | .plus :: r => do
      let (v, r1) ← parseP f 4 r
      climb f mn v r1
    | .minus :: r => do
      let (v, r1) ← parseP f 4 r
      climb f mn (← pyNeg v) r1
    | .num v :: r => climb f mn v r
    | .lparen :: r => do
      let (v, r1) ← parseP f 0 r
      match r1 with
      | .rparen :: r2 => climb f mn v r2
      | _ => .error .synErr
    | .name s :: r => parseName f mn s r
    | _ => .error .synErr
termination_by structural fuel

/-- Parse what follows a NAME: a parenthesized one- or two-argument call, a
bare-argument call, or a constant.  The argument expressions are parsed with
floor 0 (the call rules have no precedence, so every operator shifts). -/
def parseName (fuel mn : ℕ) (s : String) (ts : List Tok) :
    Except PyErr (PyVal × List Tok) :=
  match fuel, ts with
  | 0, _ => .error .fuelOut
  | f + 1, ts =>
    match ts with
    | .lparen :: r => do
      let (a1, r1) ← parseP f 0 r
      match r1 with
      | .comma :: r2 => do
        let (a2, r3) ← parseP f 0 r2
        match r3 with
        | .rparen :: r4 => do climb f mn (← funcCall s [a1, a2]) r4
        | _ => .error .synErr
      | .rparen :: r2 => do
        let (b1, r3) ← climb f 0 a1 r2
        nameArg f mn s b1 r3
      | t :: _ =>
        if exprStart t then do
          let (a2, r3) ← parseP f 0 r1
          match r3 with
          | .rparen :: r4 => do climb f mn (← funcCall s [a1, a2]) r4
          | _ => .error .synErr
        else .error .synErr
      | [] => .error .synErr
    | t :: _ =>
      if exprStart t then do
        let (a1, r1) ← parseP f 0 ts
        nameArg f mn s a1 r1
      else
        match lookupConst s with
        | some d => climb f mn (.decv d) ts
        | none => .error (.unknownValue s)
    | [] =>
      match lookupConst s with
      | some d => climb f mn (.decv d) []
      | none => .error (.unknownValue s)
termination_by structural fuel

/-- After a NAME's first (maximal) argument: a comma or a further
expression start begins a second argument, anything else completes a
one-argument call. -/
def nameArg (fuel mn : ℕ) (s : String) (a1 : PyVal) (ts : List Tok) :
    Except PyErr (PyVal × List Tok) :=
  match fuel, ts with
  | 0, _ => .error .fuelOut
  | f + 1, ts =>
    match ts with
    | .comma :: r => do
      let (a2, r1) ← parseP f 0 r
      climb f mn (← funcCall s [a1, a2]) r1
    | t :: _ =>
      if exprStart t then do
        let (a2, r1) ← parseP f 0 ts
        climb f mn (← funcCall s [a1, a2]) r1
      else do
        climb f mn (← funcCall s [a1]) ts
    | [] => do climb f mn (← funcCall s [a1]) []
termination_by structural fuel

/-- Extend a parsed left operand with binary/postfix operators of precedence
at least `mn` (left-associative: the right operand floor is one level up;
the unary level 4 excludes every binary operator, giving the
unary-binds-tighter-than-power tie-break). -/
def climb (fuel mn : ℕ) (v : PyVal) (ts : List Tok) :
    Except PyErr (PyVal × List Tok) :=
  match fuel, ts with
  | 0, _ => .error .fuelOut
  | f + 1, ts =>
    match ts with
    | .fact :: r =>
      if mn ≤ 3 then do climb f mn (← pyFactorial v) r
      else .ok (v, ts)
    | .pow :: r =>
      if mn ≤ 3 then do
        let (w, r1) ← parseP f 4 r
        climb f mn (← pyPow v w) r1
      else .ok (v, ts)
    | .mult :: r =>
      if mn ≤ 2 then do
        let (w, r1) ← parseP f 3 r
        climb f mn (← pyMul v w) r1
      else .ok (v, ts)
    | .divide :: r =>
      if mn ≤ 2 then do
        let (w, r1) ← parseP f 3 r
        climb f mn (← pyDiv v w) r1
      else .ok (v, ts)
    | .plus :: r =>
      if mn ≤ 1 then do
        let (w, r1) ← parseP f 2 r
        climb f mn (← pyAdd v w) r1
      else .ok (v, ts)
    | .minus :: r =>
      if mn ≤ 1 then do
        let (w, r1) ← parseP f 2 r
        climb f mn (← pySub v w) r1
      else .ok (v, ts)
    | _ => .ok (v, ts)
termination_by structural fuel

end

/-- `p_comparison`: the six comparison productions; all equality lexemes
(`=`, `==`, `===`) take one branch and both inequality lexemes the other. -/
def cmpEval (op : CmpOp) (a b : PyVal) : Bool :=
  let x := valFrac a
  let y := valFrac b
  match op with
  | .lt => decide (x.1 * y.2 < y.1 * x.2)
  | .gt => decide (y.1 * x.2 < x.1 * y.2)
  | .le => decide (x.1 * y.2 ≤ y.1 * x.2)
  | .ge => decide (y.1 * x.2 ≤ x.1 * y.2)
  | .eq => decide (x.1 * y.2 = y.1 * x.2)
  | .ne => decide (x.1 * y.2 ≠ y.1 * x.2)

/-- The start symbol: `result : expression | bool`, where `bool` is a single
comparison of two expressions and is not itself an expression. -/
def parseResult (f : ℕ) (ts : List Tok) : Except PyErr PyVal := do
  let (v, r) ← parseP f 0 ts
  match r with
  | [] => .ok v
  | .cmp op :: r2 => do
    let (w, r3) ← parseP f 0 r2
    match r3 with
    | [] => .ok (.boolv (cmpEval op v w))
    | _ => .error .synErr
  | _ => .error .synErr

/-- Parse and evaluate a token stream.  Fuel `3 * length + 3` always
suffices: each parser hop consumes a token or moves at most two steps to a
function of weaker fuel demand (proved below). -/
def calcTokens (ts : List Tok) : Except PyErr PyVal := parseResult (3 * ts.length + 3) ts

/-! ## The entry point (`calc`) -/

/-- The whitespace `str.strip` removes (ASCII portion). -/
def pyWS (c : Char) : Bool :=
  c = ' ' ∨ c = '\t' ∨ c = '\n' ∨ c = '\r' ∨ c = '\x0b' ∨ c = '\x0c'

/-- `str.strip()`. -/
def stripChars (l : List Char) : List Char :=
  ((l.dropWhile pyWS).reverse.dropWhile pyWS).reverse

/-- `source.strip().lower()` (ASCII model of `str.lower`). -/
def normalize (l : List Char) : List Char := (stripChars l).map Char.toLower

/-- `calc(source)` — the spec's `evaluate` (`calc` is a Lean keyword):
normalize, tokenize, parse-and-evaluate. -/
def evaluate (s : String) : Except PyErr PyVal := do
  calcTokens (← lexChars (normalize s.data))

/-! ## Parser metatheory: consumption, comparison-token preservation, fuel -/

/-- Comparison tokens. -/
def isCmpTok : Tok → Bool
  | .cmp _ => true
  | _ => false

/-- Number of comparison tokens in a stream. -/
def countCmp (ts : List Tok) : ℕ := ts.countP isCmpTok

theorem okBind {α β : Type} {m : Except PyErr α} {k : α → Except PyErr β} {b : β}
    (h : m >>= k = .ok b) : ∃ a, m = .ok a ∧ k a = .ok b := by
  cases m with
  | error e => exact nomatch h
  | ok a => exact ⟨a, rfl, h⟩

theorem okBind2 {α β γ : Type} {m : Except PyErr (α × β)} {k : α × β → Except PyErr γ}
    {b : γ} (h : m >>= k = .ok b) :
    ∃ a1 a2, m = .ok (a1, a2) ∧ k (a1, a2) = .ok b := by
  cases m with
  | error e => exact nomatch h
  | ok a => exact ⟨a.1, a.2, rfl, h⟩

/-- An expression parse consumes at least one token; `climb`, `parseName` and
`nameArg` never lengthen the remainder; and none of them consumes a
comparison token (comparisons occur only at top level). -/
theorem parse_length_all (f : ℕ) :
    (∀ mn ts v r, parseP f mn ts = .ok (v, r) →
      r.length < ts.length ∧ countCmp r = countCmp ts) ∧
    (∀ mn s ts v r, parseName f mn s ts = .ok (v, r) →
      r.length ≤ ts.length ∧ countCmp r = countCmp ts) ∧
    (∀ mn s a ts v r, nameArg f mn s a ts = .ok (v, r) →
      r.length ≤ ts.length ∧ countCmp r = countCmp ts) ∧
    (∀ mn v ts w r, climb f mn v ts = .ok (w, r) →
      r.length ≤ ts.length ∧ countCmp r = countCmp ts) := by
  have cc_cons : ∀ (t : Tok) (l : List Tok), isCmpTok t = false →
      countCmp (t :: l) = countCmp l := by
    intro t l ht; simp [countCmp, List.countP_cons, ht]
  induction f with
  | zero =>
    refine ⟨?_, ?_, ?_, ?_⟩
    · intro mn ts v r h; simp [parseP] at h
    · intro mn s ts v r h; simp [parseName] at h
    · intro mn s a ts v r h; simp [nameArg] at h
    · intro mn v ts w r h; simp [climb] at h
  | succ f ih =>
    obtain ⟨ihP, ihN, ihA, ihC⟩ := ih
    refine ⟨?_, ?_, ?_, ?_⟩
    · -- parseP
      intro mn ts v r h
      rcases ts with _ | ⟨t, rest⟩
      · simp [parseP] at h
      cases t <;> simp only [parseP] at h
      case num v0 =>
        replace h : climb f mn v0 rest = .ok (v, r) := h
        have a2 := ihC _ _ _ _ _ h
        refine ⟨by simp only [List.length_cons]; omega, ?_⟩
        rw [a2.2]; exact (cc_cons _ _ (by rfl)).symm
      case name s =>
        replace h : parseName f mn s rest = .ok (v, r) := h
        have a2 := ihN _ _ _ _ _ h
        refine ⟨by simp only [List.length_cons]; omega, ?_⟩
        rw [a2.2]; exact (cc_cons _ _ (by rfl)).symm
      case plus =>
        obtain ⟨w, r1, h1, h2⟩ := okBind2 h
        replace h2 : climb f mn w r1 = .ok (v, r) := h2
        have a1 := ihP _ _ _ _ h1
        have a2 := ihC _ _ _ _ _ h2
        refine ⟨by simp only [List.length_cons]; omega, ?_⟩
        rw [a2.2, a1.2]; exact (cc_cons _ _ (by rfl)).symm
      case minus =>
        obtain ⟨w, r1, h1, h2⟩ := okBind2 h
        replace h2 : (pyNeg w >>= fun nv => climb f mn nv r1) = .ok (v, r) := h2
        obtain ⟨nv, h3, h4⟩ := okBind h2
        have a1 := ihP _ _ _ _ h1
        have a2 := ihC _ _ _ _ _ h4
        refine ⟨by simp only [List.length_cons]; omega, ?_⟩
        rw [a2.2, a1.2]; exact (cc_cons _ _ (by rfl)).symm
      case lparen =>
        obtain ⟨w, r1, h1, h2⟩ := okBind2 h
        have a1 := ihP _ _ _ _ h1
        match r1, h2 with
        | .rparen :: r2, h2 =>
          replace h2 : climb f mn w r2 = .ok (v, r) := h2
          have a2 := ihC _ _ _ _ _ h2
          have e1 : countCmp (Tok.rparen :: r2) = countCmp r2 := cc_cons _ _ (by rfl)
          have e2 : countCmp (Tok.lparen :: rest) = countCmp rest := cc_cons _ _ (by rfl)
          simp only [List.length_cons] at *
          exact ⟨by omega, by omega⟩
        | [], h2 => exact nomatch h2
        | .num x :: r2, h2 => exact nomatch h2
        | .name x :: r2, h2 => exact nomatch h2
        | .plus :: r2, h2 => exact nomatch h2
        | .minus :: r2, h2 => exact nomatch h2
        | .mult :: r2, h2 => exact nomatch h2
        | .divide :: r2, h2 => exact nomatch h2
        | .pow :: r2, h2 => exact nomatch h2
        | .fact :: r2, h2 => exact nomatch h2
        | .lparen :: r2, h2 => exact nomatch h2
        | .comma :: r2, h2 => exact nomatch h2
        | .cmp op :: r2, h2 => exact nomatch h2
      all_goals exact nomatch h
    · -- parseName
      intro mn s ts v r h
      have constCase : ∀ (ts1 : List Tok),
          (match lookupConst s with
            | some d => climb f mn (.decv d) ts1
            | none => Except.error (.unknownValue s)) = .ok (v, r) →
          r.length ≤ ts1.length ∧ countCmp r = countCmp ts1 := by
        intro ts1 h1
        match hc : lookupConst s with
        | some d => rw [hc] at h1; exact ihC _ _ _ _ _ h1
        | none => rw [hc] at h1; exact nomatch h1
      rcases ts with _ | ⟨t, rest⟩
      · simp only [parseName] at h
        exact constCase _ h
      cases t <;> simp only [parseName, exprStart] at h
      case lparen =>
        obtain ⟨a1v, r1, h1, h2⟩ := okBind2 h
        have b1 := ihP _ _ _ _ h1
        have e0 : countCmp (Tok.lparen :: rest) = countCmp rest := cc_cons _ _ (by rfl)
        match r1, b1, h2 with
        | .comma :: r2, b1, h2 =>
          replace h2 : (do
            let x ← parseP f 0 r2
            match x with
            | (a2v, r3) =>
              match r3 with
              | .rparen :: r4 => do climb f mn (← funcCall s [a1v, a2v]) r4
              | _ => Except.error .synErr) = .ok (v, r) := h2
          obtain ⟨a2v, r3, h3, h4⟩ := okBind2 h2
          have b2 := ihP _ _ _ _ h3
          match r3, b2, h4 with
          | .rparen :: r4, b2, h4 =>
            replace h4 : (funcCall s [a1v, a2v] >>= fun cv => climb f mn cv r4) = .ok (v, r) := h4
            obtain ⟨cv, h5, h6⟩ := okBind h4
            have b3 := ihC _ _ _ _ _ h6
            have e1 : countCmp (Tok.comma :: r2) = countCmp r2 := cc_cons _ _ (by rfl)
            have e2 : countCmp (Tok.rparen :: r4) = countCmp r4 := cc_cons _ _ (by rfl)
            simp only [List.length_cons] at *
            exact ⟨by omega, by omega⟩
          | [], _, h4 => exact nomatch h4
          | .num x :: r4, _, h4 => exact nomatch h4
          | .name x :: r4, _, h4 => exact nomatch h4
          | .plus :: r4, _, h4 => exact nomatch h4
          | .minus :: r4, _, h4 => exact nomatch h4
          | .mult :: r4, _, h4 => exact nomatch h4
          | .divide :: r4, _, h4 => exact nomatch h4
          | .pow :: r4, _, h4 => exact nomatch h4
          | .fact :: r4, _, h4 => exact nomatch h4
          | .lparen :: r4, _, h4 => exact nomatch h4
          | .comma :: r4, _, h4 => exact nomatch h4
          | .cmp op :: r4, _, h4 => exact nomatch h4
        | .rparen :: r2, b1, h2 =>
          replace h2 : (do
            let y ← climb f 0 a1v r2
            match y with
            | (b1v, r3) => nameArg f mn s b1v r3) = .ok (v, r) := h2
          obtain ⟨b1v, r3, h3, h4⟩ := okBind2 h2
          replace h4 : nameArg f mn s b1v r3 = .ok (v, r) := h4
          have b2 := ihC _ _ _ _ _ h3
          have b3 := ihA _ _ _ _ _ _ h4
          have e1 : countCmp (Tok.rparen :: r2) = countCmp r2 := cc_cons _ _ (by rfl)
          simp only [List.length_cons] at *
          exact ⟨by omega, by omega⟩
        | .num x :: r2, b1, h2 =>
          replace h2 : (do
            let x2 ← parseP f 0 (Tok.num x :: r2)
            match x2 with
            | (a2v, r3) =>
              match r3 with
              | .rparen :: r4 => do climb f mn (← funcCall s [a1v, a2v]) r4
              | _ => Except.error .synErr) = .ok (v, r) := h2
          obtain ⟨a2v, r3, h3, h4⟩ := okBind2 h2
          have b2 := ihP _ _ _ _ h3
          match r3, b2, h4 with
          | .rparen :: r4, b2, h4 =>
            replace h4 : (funcCall s [a1v, a2v] >>= fun cv => climb f mn cv r4) = .ok (v, r) := h4
            obtain ⟨cv, h5, h6⟩ := okBind h4
            have b3 := ihC _ _ _ _ _ h6
            have e2 : countCmp (Tok.rparen :: r4) = countCmp r4 := cc_cons _ _ (by rfl)
            simp only [List.length_cons, countCmp, List.countP_cons, isCmpTok] at *
            exact ⟨by omega, by omega⟩
          | [], _, h4 => exact nomatch h4
          | .num y :: r4, _, h4 => exact nomatch h4
          | .name y :: r4, _, h4 => exact nomatch h4
          | .plus :: r4, _, h4 => exact nomatch h4
          | .minus :: r4, _, h4 => exact nomatch h4
          | .mult :: r4, _, h4 => exact nomatch h4
          | .divide :: r4, _, h4 => exact nomatch h4
          | .pow :: r4, _, h4 => exact nomatch h4
          | .fact :: r4, _, h4 => exact nomatch h4
          | .lparen :: r4, _, h4 => exact nomatch h4
          | .comma :: r4, _, h4 => exact nomatch h4
          | .cmp op :: r4, _, h4 => exact nomatch h4
        | .name x :: r2, b1, h2 =>
          replace h2 : (do
            let x2 ← parseP f 0 (Tok.name x :: r2)
            match x2 with
            | (a2v, r3) =>
              match r3 with
              | .rparen :: r4 => do climb f mn (← funcCall s [a1v, a2v]) r4
              | _ => Except.error .synErr) = .ok (v, r) := h2
          obtain ⟨a2v, r3, h3, h4⟩ := okBind2 h2
          have b2 := ihP _ _ _ _ h3
          match r3, b2, h4 with
          | .rparen :: r4, b2, h4 =>
            replace h4 : (funcCall s [a1v, a2v] >>= fun cv => climb f mn cv r4) = .ok (v, r) := h4
            obtain ⟨cv, h5, h6⟩ := okBind h4
            have b3 := ihC _ _ _ _ _ h6
            have e2 : countCmp (Tok.rparen :: r4) = countCmp r4 := cc_cons _ _ (by rfl)
            simp only [List.length_cons, countCmp, List.countP_cons, isCmpTok] at *
            exact ⟨by omega, by omega⟩
          | [], _, h4 => exact nomatch h4
          | .num y :: r4, _, h4 => exact nomatch h4
          | .name y :: r4, _, h4 => exact nomatch h4
          | .plus :: r4, _, h4 => exact nomatch h4
          | .minus :: r4, _, h4 => exact nomatch h4
          | .mult :: r4, _, h4 => exact nomatch h4
          | .divide :: r4, _, h4 => exact nomatch h4
          | .pow :: r4, _, h4 => exact nomatch h4
          | .fact :: r4, _, h4 => exact nomatch h4
          | .lparen :: r4, _, h4 => exact nomatch h4
          | .comma :: r4, _, h4 => exact nomatch h4
          | .cmp op :: r4, _, h4 => exact nomatch h4
        | .lparen :: r2, b1, h2 =>
          replace h2 : (do
            let x2 ← parseP f 0 (Tok.lparen :: r2)
            match x2 with
            | (a2v, r3) =>
              match r3 with
              | .rparen :: r4 => do climb f mn (← funcCall s [a1v, a2v]) r4
              | _ => Except.error .synErr) = .ok (v, r) := h2
          obtain ⟨a2v, r3, h3, h4⟩ := okBind2 h2
          have b2 := ihP _ _ _ _ h3
          match r3, b2, h4 with
          | .rparen :: r4, b2, h4 =>
            replace h4 : (funcCall s [a1v, a2v] >>= fun cv => climb f mn cv r4) = .ok (v, r) := h4
            obtain ⟨cv, h5, h6⟩ := okBind h4
            have b3 := ihC _ _ _ _ _ h6
            have e2 : countCmp (Tok.rparen :: r4) = countCmp r4 := cc_cons _ _ (by rfl)
            simp only [List.length_cons, countCmp, List.countP_cons, isCmpTok] at *
            exact ⟨by omega, by omega⟩
          | [], _, h4 => exact nomatch h4
          | .num y :: r4, _, h4 => exact nomatch h4
          | .name y :: r4, _, h4 => exact nomatch h4
          | .plus :: r4, _, h4 => exact nomatch h4
          | .minus :: r4, _, h4 => exact nomatch h4
          | .mult :: r4, _, h4 => exact nomatch h4
          | .divide :: r4, _, h4 => exact nomatch h4
          | .pow :: r4, _, h4 => exact nomatch h4
          | .fact :: r4, _, h4 => exact nomatch h4
          | .lparen :: r4, _, h4 => exact nomatch h4
          | .comma :: r4, _, h4 => exact nomatch h4
          | .cmp op :: r4, _, h4 => exact nomatch h4
        | .plus :: r2, b1, h2 =>
          replace h2 : (do
            let x2 ← parseP f 0 (Tok.plus :: r2)
            match x2 with
            | (a2v, r3) =>
              match r3 with
              | .rparen :: r4 => do climb f mn (← funcCall s [a1v, a2v]) r4
              | _ => Except.error .synErr) = .ok (v, r) := h2
          obtain ⟨a2v, r3, h3, h4⟩ := okBind2 h2
          have b2 := ihP _ _ _ _ h3
          match r3, b2, h4 with
          | .rparen :: r4, b2, h4 =>
            replace h4 : (funcCall s [a1v, a2v] >>= fun cv => climb f mn cv r4) = .ok (v, r) := h4
            obtain ⟨cv, h5, h6⟩ := okBind h4
            have b3 := ihC _ _ _ _ _ h6
            have e2 : countCmp (Tok.rparen :: r4) = countCmp r4 := cc_cons _ _ (by rfl)
            simp only [List.length_cons, countCmp, List.countP_cons, isCmpTok] at *
            exact ⟨by omega, by omega⟩
          | [], _, h4 => exact nomatch h4
          | .num y :: r4, _, h4 => exact nomatch h4
          | .name y :: r4, _, h4 => exact nomatch h4
          | .plus :: r4, _, h4 => exact nomatch h4
          | .minus :: r4, _, h4 => exact nomatch h4
          | .mult :: r4, _, h4 => exact nomatch h4
          | .divide :: r4, _, h4 => exact nomatch h4
          | .pow :: r4, _, h4 => exact nomatch h4
          | .fact :: r4, _, h4 => exact nomatch h4
          | .lparen :: r4, _, h4 => exact nomatch h4
          | .comma :: r4, _, h4 => exact nomatch h4
          | .cmp op :: r4, _, h4 => exact nomatch h4
        | .minus :: r2, b1, h2 =>
          replace h2 : (do
            let x2 ← parseP f 0 (Tok.minus :: r2)
            match x2 with
            | (a2v, r3) =>
              match r3 with
              | .rparen :: r4 => do climb f mn (← funcCall s [a1v, a2v]) r4
              | _ => Except.error .synErr) = .ok (v, r) := h2
          obtain ⟨a2v, r3, h3, h4⟩ := okBind2 h2
          have b2 := ihP _ _ _ _ h3
          match r3, b2, h4 with
          | .rparen :: r4, b2, h4 =>
            replace h4 : (funcCall s [a1v, a2v] >>= fun cv => climb f mn cv r4) = .ok (v, r) := h4
            obtain ⟨cv, h5, h6⟩ := okBind h4
            have b3 := ihC _ _ _ _ _ h6
            have e2 : countCmp (Tok.rparen :: r4) = countCmp r4 := cc_cons _ _ (by rfl)
            simp only [List.length_cons, countCmp, List.countP_cons, isCmpTok] at *
            exact ⟨by omega, by omega⟩
          | [], _, h4 => exact nomatch h4
          | .num y :: r4, _, h4 => exact nomatch h4
          | .name y :: r4, _, h4 => exact nomatch h4
          | .plus :: r4, _, h4 => exact nomatch h4
          | .minus :: r4, _, h4 => exact nomatch h4
          | .mult :: r4, _, h4 => exact nomatch h4
          | .divide :: r4, _, h4 => exact nomatch h4
          | .pow :: r4, _, h4 => exact nomatch h4
          | .fact :: r4, _, h4 => exact nomatch h4
          | .lparen :: r4, _, h4 => exact nomatch h4
          | .comma :: r4, _, h4 => exact nomatch h4
          | .cmp op :: r4, _, h4 => exact nomatch h4
        | .mult :: r2, _, h2 => exact nomatch h2
        | .divide :: r2, _, h2 => exact nomatch h2
        | .pow :: r2, _, h2 => exact nomatch h2
        | .fact :: r2, _, h2 => exact nomatch h2
        | .cmp op :: r2, _, h2 => exact nomatch h2
        | [], _, h2 => exact nomatch h2
      case num v0 =>
        obtain ⟨a1v, r1, h1, h2⟩ := okBind2 h
        replace h2 : nameArg f mn s a1v r1 = .ok (v, r) := h2
        have b1 := ihP _ _ _ _ h1
        have b2 := ihA _ _ _ _ _ _ h2
        simp only [List.length_cons] at b1
        refine ⟨by simp only [List.length_cons]; omega, ?_⟩
        rw [b2.2, b1.2]
      case name s2 =>
        obtain ⟨a1v, r1, h1, h2⟩ := okBind2 h
        replace h2 : nameArg f mn s a1v r1 = .ok (v, r) := h2
        have b1 := ihP _ _ _ _ h1
        have b2 := ihA _ _ _ _ _ _ h2
        simp only [List.length_cons] at b1
        refine ⟨by simp only [List.length_cons]; omega, ?_⟩
        rw [b2.2, b1.2]
      case plus =>
        obtain ⟨a1v, r1, h1, h2⟩ := okBind2 h
        replace h2 : nameArg f mn s a1v r1 = .ok (v, r) := h2
        have b1 := ihP _ _ _ _ h1
        have b2 := ihA _ _ _ _ _ _ h2
        simp only [List.length_cons] at b1
        refine ⟨by simp only [List.length_cons]; omega, ?_⟩
        rw [b2.2, b1.2]
      case minus =>
        obtain ⟨a1v, r1, h1, h2⟩ := okBind2 h
        replace h2 : nameArg f mn s a1v r1 = .ok (v, r) := h2
        have b1 := ihP _ _ _ _ h1
        have b2 := ihA _ _ _ _ _ _ h2
        simp only [List.length_cons] at b1
        refine ⟨by simp only [List.length_cons]; omega, ?_⟩
        rw [b2.2, b1.2]
      case mult =>
        have e0 : countCmp (Tok.mult :: rest) = countCmp rest := cc_cons _ _ (by rfl)
        have := constCase _ h
        simp only [List.length_cons] at *
        exact ⟨by omega, by omega⟩
      case divide =>
        have e0 : countCmp (Tok.divide :: rest) = countCmp rest := cc_cons _ _ (by rfl)
        have := constCase _ h
        simp only [List.length_cons] at *
        exact ⟨by omega, by omega⟩
      case pow =>
        have e0 : countCmp (Tok.pow :: rest) = countCmp rest := cc_cons _ _ (by rfl)
        have := constCase _ h
        simp only [List.length_cons] at *
        exact ⟨by omega, by omega⟩
      case fact =>
        have e0 : countCmp (Tok.fact :: rest) = countCmp rest := cc_cons _ _ (by rfl)
        have := constCase _ h
        simp only [List.length_cons] at *
        exact ⟨by omega, by omega⟩
      case rparen =>
        have e0 : countCmp (Tok.rparen :: rest) = countCmp rest := cc_cons _ _ (by rfl)
        have := constCase _ h
        simp only [List.length_cons] at *
        exact ⟨by omega, by omega⟩
      case comma =>
        have e0 : countCmp (Tok.comma :: rest) = countCmp rest := cc_cons _ _ (by rfl)
        have := constCase _ h
        simp only [List.length_cons] at *
        exact ⟨by omega, by omega⟩
      case cmp op =>
        have := constCase _ h
        simp only [List.length_cons] at *
        exact ⟨by omega, by omega⟩
    · -- nameArg
      intro mn s a ts v r h
      have oneArg : ∀ (ts1 : List Tok),
          (funcCall s [a] >>= fun cv => climb f mn cv ts1) = .ok (v, r) →
          r.length ≤ ts1.length ∧ countCmp r = countCmp ts1 := by
        intro ts1 h1
        obtain ⟨cv, h5, h6⟩ := okBind h1
        exact ihC _ _ _ _ _ h6
      have twoArg : ∀ (ts1 : List Tok),
          (do
            let x ← parseP f 0 ts1
            match x with
            | (a2v, r1) => do climb f mn (← funcCall s [a, a2v]) r1) = .ok (v, r) →
          r.length < ts1.length ∧ countCmp r = countCmp ts1 := by
        intro ts1 h1
        obtain ⟨a2v, r1, h3, h4⟩ := okBind2 h1
        replace h4 : (funcCall s [a, a2v] >>= fun cv => climb f mn cv r1) = .ok (v, r) := h4
        obtain ⟨cv, h5, h6⟩ := okBind h4
        have b1 := ihP _ _ _ _ h3
        have b2 := ihC _ _ _ _ _ h6
        exact ⟨by omega, by omega⟩
      rcases ts with _ | ⟨t, rest⟩
      · simp only [nameArg] at h
        exact oneArg _ h
      cases t <;> simp only [nameArg, exprStart] at h
      case comma =>
        replace h : (do
          let x ← parseP f 0 rest
          match x with
          | (a2v, r1) => do climb f mn (← funcCall s [a, a2v]) r1) = .ok (v, r) := h
        have := twoArg _ h
        have e0 : countCmp (Tok.comma :: rest) = countCmp rest := cc_cons _ _ (by rfl)
        simp only [List.length_cons] at *
        exact ⟨by omega, by omega⟩
      case num v0 =>
        have := twoArg _ h
        simp only [List.length_cons] at *
        exact ⟨by omega, this.2⟩
      case name s2 =>
        have := twoArg _ h
        simp only [List.length_cons] at *
        exact ⟨by omega, this.2⟩
      case lparen =>
        have := twoArg _ h
        simp only [List.length_cons] at *
        exact ⟨by omega, this.2⟩
      case plus =>
        have := twoArg _ h
        simp only [List.length_cons] at *
        exact ⟨by omega, this.2⟩
      case minus =>
        have := twoArg _ h
        simp only [List.length_cons] at *
        exact ⟨by omega, this.2⟩
      all_goals exact oneArg _ h
    · -- climb
      intro mn v ts w r h
      have binCase : ∀ (op : PyVal → PyVal → Except PyErr PyVal) (lv : ℕ) (rest1 : List Tok),
          (do
            let x ← parseP f lv rest1
            match x with
            | (w1, r1) => do climb f mn (← op v w1) r1) = .ok (w, r) →
          r.length < rest1.length ∧ countCmp r = countCmp rest1 := by
        intro op lv rest1 h1
        obtain ⟨w1, r1, h3, h4⟩ := okBind2 h1
        replace h4 : (op v w1 >>= fun pv => climb f mn pv r1) = .ok (w, r) := h4
        obtain ⟨pv, h5, h6⟩ := okBind h4
        have b1 := ihP _ _ _ _ h3
        have b2 := ihC _ _ _ _ _ h6
        exact ⟨by omega, by omega⟩
      rcases ts with _ | ⟨t, rest⟩
      · simp only [climb] at h
        cases h
        exact ⟨le_rfl, rfl⟩
      cases t <;> simp only [climb] at h
      case fact =>
        split at h
        · replace h : (pyFactorial v >>= fun fv => climb f mn fv rest) = .ok (w, r) := h
          obtain ⟨fv, h5, h6⟩ := okBind h
          have b2 := ihC _ _ _ _ _ h6
          refine ⟨by simp only [List.length_cons]; omega, ?_⟩
          rw [b2.2]; exact (cc_cons _ _ (by rfl)).symm
        · cases h
          exact ⟨le_rfl, rfl⟩
      case pow =>
        split at h
        · have := binCase pyPow 4 rest h
          refine ⟨by simp only [List.length_cons]; omega, ?_⟩
          rw [this.2]; exact (cc_cons _ _ (by rfl)).symm
        · cases h
          exact ⟨le_rfl, rfl⟩
      case mult =>
        split at h
        · have := binCase pyMul 3 rest h
          refine ⟨by simp only [List.length_cons]; omega, ?_⟩
          rw [this.2]; exact (cc_cons _ _ (by rfl)).symm
        · cases h
          exact ⟨le_rfl, rfl⟩
      case divide =>
        split at h
        · have := binCase pyDiv 3 rest h
          refine ⟨by simp only [List.length_cons]; omega, ?_⟩
          rw [this.2]; exact (cc_cons _ _ (by rfl)).symm
        · cases h
          exact ⟨le_rfl, rfl⟩
      case plus =>
        split at h
        · have := binCase pyAdd 2 rest h
          refine ⟨by simp only [List.length_cons]; omega, ?_⟩
          rw [this.2]; exact (cc_cons _ _ (by rfl)).symm
        · cases h
          exact ⟨le_rfl, rfl⟩
      case minus =>
        split at h
        · have := binCase pySub 2 rest h
          refine ⟨by simp only [List.length_cons]; omega, ?_⟩
          rw [this.2]; exact (cc_cons _ _ (by rfl)).symm
        · cases h
          exact ⟨le_rfl, rfl⟩
      all_goals
        · cases h
          exact ⟨le_rfl, rfl⟩

theorem parseP_len {f mn ts v r} (h : parseP f mn ts = .ok (v, r)) :
    r.length < ts.length := ((parse_length_all f).1 _ _ _ _ h).1

theorem parseP_cc {f mn ts v r} (h : parseP f mn ts = .ok (v, r)) :
    countCmp r = countCmp ts := ((parse_length_all f).1 _ _ _ _ h).2

theorem climb_len {f mn v ts w r} (h : climb f mn v ts = .ok (w, r)) :
    r.length ≤ ts.length := ((parse_length_all f).2.2.2 _ _ _ _ _ h).1

theorem bindCongr {α β : Type} {m : Except PyErr α} {k1 k2 : α → Except PyErr β}
    (h : ∀ a, m = .ok a → k1 a = k2 a) : m >>= k1 = m >>= k2 := by
  cases m with
  | error e => rfl
  | ok a => exact h a rfl

theorem bindCongr2 {α β γ : Type} {m : Except PyErr (α × β)}
    {k1 k2 : α × β → Except PyErr γ}
    (h : ∀ a b, m = .ok (a, b) → k1 (a, b) = k2 (a, b)) : m >>= k1 = m >>= k2 := by
  cases m with
  | error e => rfl
  | ok a => exact h a.1 a.2 rfl

/-- The parser is fuel-insensitive once the fuel dominates the token count:
`3 * length + 3` suffices for `parseP` and `climb`, `3 * length + 4` for the
NAME helpers. -/
theorem parse_fuel_all (f : ℕ) :
    (∀ g mn ts, 3 * ts.length + 3 ≤ f → 3 * ts.length + 3 ≤ g →
      parseP f mn ts = parseP g mn ts) ∧
    (∀ g mn s ts, 3 * ts.length + 4 ≤ f → 3 * ts.length + 4 ≤ g →
      parseName f mn s ts = parseName g mn s ts) ∧
    (∀ g mn s a ts, 3 * ts.length + 4 ≤ f → 3 * ts.length + 4 ≤ g →
      nameArg f mn s a ts = nameArg g mn s a ts) ∧
    (∀ g mn v ts, 3 * ts.length + 3 ≤ f → 3 * ts.length + 3 ≤ g →
      climb f mn v ts = climb g mn v ts) := by
  induction f with
  | zero =>
    refine ⟨?_, ?_, ?_, ?_⟩
    · intro g mn ts h1 h2; exact absurd h1 (by omega)
    · intro g mn s ts h1 h2; exact absurd h1 (by omega)
    · intro g mn s a ts h1 h2; exact absurd h1 (by omega)
    · intro g mn v ts h1 h2; exact absurd h1 (by omega)
  | succ f ih =>
    obtain ⟨ihP, ihN, ihA, ihC⟩ := ih
    refine ⟨?_, ?_, ?_, ?_⟩
    · -- parseP
      intro g mn ts hf hg
      rcases g with _ | g
      · exact absurd hg (by omega)
      rcases ts with _ | ⟨t, rest⟩
      · simp [parseP]
      simp only [List.length_cons] at hf hg
      cases t <;> simp only [parseP]
      case num v0 => exact ihC g mn v0 rest (by omega) (by omega)
      case name s => exact ihN g mn s rest (by omega) (by omega)
      case plus =>
        rw [ihP g 4 rest (by omega) (by omega)]
        refine bindCongr2 ?_
        intro w r1 hok
        try dsimp only
        have L1 := parseP_len hok
        exact ihC g mn w r1 (by omega) (by omega)
      case minus =>
        rw [ihP g 4 rest (by omega) (by omega)]
        refine bindCongr2 ?_
        intro w r1 hok
        try dsimp only
        have L1 := parseP_len hok
        refine bindCongr ?_
        intro nv _
        exact ihC g mn nv r1 (by omega) (by omega)
      case lparen =>
        rw [ihP g 0 rest (by omega) (by omega)]
        refine bindCongr2 ?_
        intro w r1 hok
        try dsimp only
        have L1 := parseP_len hok
        rcases r1 with _ | ⟨t1, r2⟩
        · rfl
        simp only [List.length_cons] at L1
        cases t1 <;> try rfl
        case rparen => exact ihC g mn w r2 (by omega) (by omega)
    · -- parseName
      intro g mn s ts hf hg
      rcases g with _ | g
      · exact absurd hg (by omega)
      have constCase : ∀ (ts1 : List Tok), 3 * ts1.length + 3 ≤ f →
          3 * ts1.length + 3 ≤ g →
          (match lookupConst s with
            | some d => climb f mn (.decv d) ts1
            | none => Except.error (.unknownValue s)) =
          (match lookupConst s with
            | some d => climb g mn (.decv d) ts1
            | none => Except.error (.unknownValue s)) := by
        intro ts1 hb1 hb2
        match lookupConst s with
        | some d => exact ihC g mn (.decv d) ts1 hb1 hb2
        | none => rfl
      rcases ts with _ | ⟨t, rest⟩
      · simp only [parseName]
        exact constCase [] (by simp only [List.length_nil]; omega)
          (by simp only [List.length_nil]; omega)
      simp only [List.length_cons] at hf hg
      have twoArg : ∀ (a1v : PyVal) (ts1 : List Tok), 3 * ts1.length + 3 ≤ f →
          3 * ts1.length + 3 ≤ g →
          (do
            let x ← parseP f 0 ts1
            match x.2 with
            | .rparen :: r4 => do climb f mn (← funcCall s [a1v, x.1]) r4
            | _ => Except.error .synErr) =
          (do
            let x ← parseP g 0 ts1
            match x.2 with
            | .rparen :: r4 => do climb g mn (← funcCall s [a1v, x.1]) r4
            | _ => Except.error .synErr) := by
        intro a1v ts1 hb1 hb2
        rw [ihP g 0 ts1 hb1 hb2]
        refine bindCongr2 ?_
        intro a2v r3 hok2
        try dsimp only
        have L2 := parseP_len hok2
        rcases r3 with _ | ⟨t2, r4⟩
        · rfl
        simp only [List.length_cons] at L2
        cases t2 <;> try rfl
        case rparen =>
          refine bindCongr ?_
          intro cv _
          exact ihC g mn cv r4 (by omega) (by omega)
      have bareArg : ∀ (ts1 : List Tok), 3 * ts1.length + 3 ≤ f →
          3 * ts1.length + 3 ≤ g →
          (do
            let x ← parseP f 0 ts1
            nameArg f mn s x.1 x.2) =
          (do
            let x ← parseP g 0 ts1
            nameArg g mn s x.1 x.2) := by
        intro ts1 hb1 hb2
        rw [ihP g 0 ts1 hb1 hb2]
        refine bindCongr2 ?_
        intro a1v r1 hok1
        try dsimp only
        have L1 := parseP_len hok1
        exact ihA g mn s a1v r1 (by omega) (by omega)
      cases t <;> simp only [parseName, exprStart]
      case lparen =>
        rw [ihP g 0 rest (by omega) (by omega)]
        refine bindCongr2 ?_
        intro a1v r1 hok1
        try dsimp only
        have L1 := parseP_len hok1
        rcases r1 with _ | ⟨t1, r2⟩
        · rfl
        simp only [List.length_cons] at L1
        cases t1 <;> try dsimp only
        case comma =>
          exact twoArg a1v r2 (by omega) (by omega)
        case rparen =>
          rw [ihC g 0 a1v r2 (by omega) (by omega)]
          refine bindCongr2 ?_
          intro b1v r3 hok3
          try dsimp only
          have L3 := climb_len hok3
          exact ihA g mn s b1v r3 (by omega) (by omega)
        case num v0 =>
          exact twoArg a1v (Tok.num v0 :: r2) (by simp only [List.length_cons]; omega)
            (by simp only [List.length_cons]; omega)
        case name x =>
          exact twoArg a1v (Tok.name x :: r2) (by simp only [List.length_cons]; omega)
            (by simp only [List.length_cons]; omega)
        case lparen =>
          exact twoArg a1v (Tok.lparen :: r2) (by simp only [List.length_cons]; omega)
            (by simp only [List.length_cons]; omega)
        case plus =>
          exact twoArg a1v (Tok.plus :: r2) (by simp only [List.length_cons]; omega)
            (by simp only [List.length_cons]; omega)
        case minus =>
          exact twoArg a1v (Tok.minus :: r2) (by simp only [List.length_cons]; omega)
            (by simp only [List.length_cons]; omega)
        all_goals rfl
      case num v0 =>
        exact bareArg (Tok.num v0 :: rest) (by simp only [List.length_cons]; omega)
          (by simp only [List.length_cons]; omega)
      case name x =>
        exact bareArg (Tok.name x :: rest) (by simp only [List.length_cons]; omega)
          (by simp only [List.length_cons]; omega)
      case plus =>
        exact bareArg (Tok.plus :: rest) (by simp only [List.length_cons]; omega)
          (by simp only [List.length_cons]; omega)
      case minus =>
        exact bareArg (Tok.minus :: rest) (by simp only [List.length_cons]; omega)
          (by simp only [List.length_cons]; omega)
      all_goals refine constCase _ ?_ ?_ <;> simp only [List.length_cons] <;> omega
    · -- nameArg
      intro g mn s a ts hf hg
      rcases g with _ | g
      · exact absurd hg (by omega)
      have oneArg : ∀ (ts1 : List Tok), 3 * ts1.length + 3 ≤ f →
          3 * ts1.length + 3 ≤ g →
          (funcCall s [a] >>= fun cv => climb f mn cv ts1) =
          (funcCall s [a] >>= fun cv => climb g mn cv ts1) := by
        intro ts1 hb1 hb2
        refine bindCongr ?_
        intro cv _
        exact ihC g mn cv ts1 hb1 hb2
      have twoArg : ∀ (ts1 : List Tok), 3 * ts1.length + 3 ≤ f →
          3 * ts1.length + 3 ≤ g →
          (do
            let x ← parseP f 0 ts1
            climb f mn (← funcCall s [a, x.1]) x.2) =
          (do
            let x ← parseP g 0 ts1
            climb g mn (← funcCall s [a, x.1]) x.2) := by
        intro ts1 hb1 hb2
        rw [ihP g 0 ts1 hb1 hb2]
        refine bindCongr2 ?_
        intro a2v r1 hok1
        try dsimp only
        have L1 := parseP_len hok1
        refine bindCongr ?_
        intro cv _
        exact ihC g mn cv r1 (by omega) (by omega)
      rcases ts with _ | ⟨t, rest⟩
      · simp only [nameArg]
        exact oneArg [] (by simp only [List.length_nil]; omega)
          (by simp only [List.length_nil]; omega)
      simp only [List.length_cons] at hf hg
      cases t <;> simp only [nameArg, exprStart]
      case comma => exact twoArg rest (by omega) (by omega)
      case num v0 =>
        exact twoArg (Tok.num v0 :: rest) (by simp only [List.length_cons]; omega)
          (by simp only [List.length_cons]; omega)
      case name x =>
        exact twoArg (Tok.name x :: rest) (by simp only [List.length_cons]; omega)
          (by simp only [List.length_cons]; omega)
      case lparen =>
        exact twoArg (Tok.lparen :: rest) (by simp only [List.length_cons]; omega)
          (by simp only [List.length_cons]; omega)
      case plus =>
        exact twoArg (Tok.plus :: rest) (by simp only [List.length_cons]; omega)
          (by simp only [List.length_cons]; omega)
      case minus =>
        exact twoArg (Tok.minus :: rest) (by simp only [List.length_cons]; omega)
          (by simp only [List.length_cons]; omega)
      all_goals refine oneArg _ ?_ ?_ <;> simp only [List.length_cons] <;> omega
    · -- climb
      intro g mn v ts hf hg
      rcases g with _ | g
      · exact absurd hg (by omega)
      have binCase : ∀ (op : PyVal → PyVal → Except PyErr PyVal) (lv : ℕ)
          (rest1 : List Tok), 3 * rest1.length + 3 ≤ f → 3 * rest1.length + 3 ≤ g →
          (do
            let x ← parseP f lv rest1
            climb f mn (← op v x.1) x.2) =
          (do
            let x ← parseP g lv rest1
            climb g mn (← op v x.1) x.2) := by
        intro op lv rest1 hb1 hb2
        rw [ihP g lv rest1 hb1 hb2]
        refine bindCongr2 ?_
        intro w1 r1 hok1
        try dsimp only
        have L1 := parseP_len hok1
        refine bindCongr ?_
        intro pv _
        exact ihC g mn pv r1 (by omega) (by omega)
      rcases ts with _ | ⟨t, rest⟩
      · simp [climb]
      simp only [List.length_cons] at hf hg
      cases t <;> simp only [climb]
      case fact =>
        split
        · refine bindCongr ?_
          intro fv _
          exact ihC g mn fv rest (by omega) (by omega)
        · rfl
      case pow =>
        split
        · exact binCase pyPow 4 rest (by omega) (by omega)
        · rfl
      case mult =>
        split
        · exact binCase pyMul 3 rest (by omega) (by omega)
        · rfl
      case divide =>
        split
        · exact binCase pyDiv 3 rest (by omega) (by omega)
        · rfl
      case plus =>
        split
        · exact binCase pyAdd 2 rest (by omega) (by omega)
        · rfl
      case minus =>
        split
        · exact binCase pySub 2 rest (by omega) (by omega)
        · rfl

theorem parseP_fuel {f g mn : ℕ} {ts : List Tok} (hf : 3 * ts.length + 3 ≤ f)
    (hg : 3 * ts.length + 3 ≤ g) : parseP f mn ts = parseP g mn ts :=
  (parse_fuel_all f).1 g mn ts hf hg

/-- The start-symbol parser is fuel-insensitive above `3 * length + 3`. -/
theorem parseResult_fuel {f g : ℕ} {ts : List Tok} (hf : 3 * ts.length + 3 ≤ f)
    (hg : 3 * ts.length + 3 ≤ g) : parseResult f ts = parseResult g ts := by
  unfold parseResult
  rw [parseP_fuel hf hg]
  refine bindCongr2 ?_
  intro v r hok
  have L1 := parseP_len hok
  dsimp only
  rcases r with _ | ⟨t, r2⟩
  · rfl
  simp only [List.length_cons] at L1
  cases t <;> try rfl
  case cmp op =>
    dsimp only
    rw [@parseP_fuel f g 0 r2 (by omega) (by omega)]

/-- Evaluating a token stream with any sufficient fuel agrees with
`calcTokens`. -/
theorem calcTokens_eq {f : ℕ} {ts : List Tok} (hf : 3 * ts.length + 3 ≤ f) :
    parseResult f ts = calcTokens ts :=
  parseResult_fuel hf (by omega)

/-! ## Numeric metatheory: the 28-significant-digit bound -/

theorem d10go_eq (fuel n : ℕ) (h : n ≤ fuel) : d10go fuel n = Nat.log 10 n + 1 := by
  induction fuel generalizing n with
  | zero =>
    have hn : n = 0 := by omega
    subst hn
    simp [d10go]
  | succ f ih =>
    rw [d10go]
    by_cases h10 : n < 10
    · rw [if_pos h10, Nat.log_eq_zero_iff.mpr (Or.inl h10)]
    · push_neg at h10
      have hlt : n / 10 < n := Nat.div_lt_self (by omega) (by norm_num)
      rw [if_neg (by omega), ih (n / 10) (by omega),
        Nat.log_of_one_lt_of_le (by norm_num) h10]

theorem digits10_eq (n : ℕ) : digits10 n = Nat.log 10 n + 1 := d10go_eq n n le_rfl

theorem digits10_pos (n : ℕ) : 1 ≤ digits10 n := by rw [digits10_eq]; omega

theorem lt_pow_digits10 (n : ℕ) : n < 10 ^ digits10 n := by
  rw [digits10_eq]
  exact Nat.lt_pow_succ_log_self (by norm_num) n

theorem pow_digits10_le {n : ℕ} (hn : n ≠ 0) : 10 ^ (digits10 n - 1) ≤ n := by
  rw [digits10_eq, Nat.add_sub_cancel]
  exact Nat.pow_log_le_self 10 hn

theorem digits10_le_iff {n k : ℕ} (hk : 1 ≤ k) : digits10 n ≤ k ↔ n < 10 ^ k := by
  rcases Nat.eq_zero_or_pos n with h0 | hp
  · subst h0
    rw [digits10_eq, Nat.log_zero_right]
    exact iff_of_true (by omega) (pow_pos (by norm_num) k)
  · rw [digits10_eq]
    constructor
    · intro h
      exact (Nat.lt_pow_iff_log_lt (by norm_num) (by omega)).mpr (by omega)
    · intro h
      have := Nat.log_lt_of_lt_pow (by omega : n ≠ 0) h
      omega

theorem digits10_mul_pow {c : ℕ} (hc : c ≠ 0) (p : ℕ) :
    digits10 (c * 10 ^ p) = digits10 c + p := by
  induction p with
  | zero => simp
  | succ p ih =>
    have hcp : c * 10 ^ p ≠ 0 := by positivity
    have hmul : c * 10 ^ (p + 1) = c * 10 ^ p * 10 := by ring
    rw [hmul, digits10_eq, Nat.log_mul_base (by norm_num) hcp, ← Nat.add_assoc,
      ← digits10_eq, ih]

theorem halfEvenDiv_bound {a b M : ℤ} (hb : 0 < b) (hlo : -(M * b) < a)
    (hhi : a < M * b) : -M ≤ halfEvenDiv a b ∧ halfEvenDiv a b ≤ M := by
  have hq := Int.fdiv_add_fmod a b
  have hr0 : 0 ≤ a.fmod b := Int.fmod_nonneg' a hb
  have hrb : a.fmod b < b := Int.fmod_lt_of_pos a hb
  have hql : -M ≤ a.fdiv b := by
    by_contra hc
    push_neg at hc
    have h1 : a.fdiv b + 1 ≤ -M := by omega
    have h2 := mul_le_mul_of_nonneg_left h1 hb.le
    nlinarith
  have hqu : a.fdiv b ≤ M - 1 := by
    by_contra hc
    push_neg at hc
    have h1 : M ≤ a.fdiv b := by omega
    have h2 := mul_le_mul_of_nonneg_left h1 hb.le
    nlinarith
  unfold halfEvenDiv
  dsimp only
  split_ifs <;> omega

theorem checkOverflow_ok {x d : Dec} (h : checkOverflow x = .ok d) : d = x := by
  unfold checkOverflow at h
  split at h
  · cases h
  · cases h; rfl

theorem round_tail {c e : ℤ} {d : Dec} (hc1 : -(10 ^ 28) ≤ c) (hc2 : c ≤ 10 ^ 28)
    (h : (if digits10 c.natAbs ≤ 28 then checkOverflow ⟨c, e⟩
          else checkOverflow ⟨c / 10, e + 1⟩) = .ok d) :
    digits10 d.c.natAbs ≤ 28 := by
  split at h
  · cases checkOverflow_ok h
    assumption
  · cases checkOverflow_ok h
    dsimp only
    have hle : c / 10 ≤ 10 ^ 27 := by
      have h1 : c / 10 ≤ 10 ^ 28 / 10 := Int.ediv_le_ediv (by norm_num) hc2
      have h2 : (10 : ℤ) ^ 28 / 10 = 10 ^ 27 := by norm_num
      omega
    have hge : -(10 ^ 27) ≤ c / 10 := by
      have h1 : -(10 ^ 28) / 10 ≤ c / 10 := Int.ediv_le_ediv (by norm_num) hc1
      have h2 : -((10 : ℤ) ^ 28) / 10 = -(10 ^ 27) := by norm_num
      omega
    rw [digits10_le_iff (by norm_num)]
    have e27 : (10 : ℤ) ^ 27 = 1000000000000000000000000000 := by norm_num
    have e28 : (10 : ℕ) ^ 28 = 10000000000000000000000000000 := by norm_num
    omega

theorem roundDec_digits {x d : Dec} (h : roundDec x = .ok d) :
    digits10 d.c.natAbs ≤ 28 := by
  unfold roundDec at h
  dsimp only at h
  split at h
  · cases checkOverflow_ok h
    assumption
  · rename_i hnd
    push_neg at hnd
    have h1 : x.c.natAbs < 10 ^ digits10 x.c.natAbs := lt_pow_digits10 _
    have h2 : (10 : ℕ) ^ digits10 x.c.natAbs =
        10 ^ 28 * 10 ^ (digits10 x.c.natAbs - 28) := by
      rw [← pow_add]
      congr 1
      omega
    have h3 : (x.c.natAbs : ℤ) < 10 ^ 28 * 10 ^ (digits10 x.c.natAbs - 28) := by
      rw [h2] at h1
      exact_mod_cast h1
    have hb : (0 : ℤ) < 10 ^ (digits10 x.c.natAbs - 28) := by positivity
    have hlo : -(10 ^ 28 * 10 ^ (digits10 x.c.natAbs - 28)) < x.c := by omega
    have hhi : x.c < 10 ^ 28 * 10 ^ (digits10 x.c.natAbs - 28) := by omega
    have hbd := halfEvenDiv_bound hb hlo hhi
    exact round_tail hbd.1 hbd.2 h


theorem fracDexp_lt {num den : ℤ} (hden : 0 < den) (hnum : num ≠ 0) :
    (num.natAbs : ℤ) * 10 ^ (-(fracDexp num den)).toNat <
      den * 10 ^ (fracDexp num den).toNat := by
  have hdn1 := digits10_pos num.natAbs
  have hdd1 := digits10_pos den.natAbs
  have hu_num : (num.natAbs : ℤ) < 10 ^ digits10 num.natAbs := by
    exact_mod_cast lt_pow_digits10 num.natAbs
  have hl_num : (10 : ℤ) ^ (digits10 num.natAbs - 1) ≤ (num.natAbs : ℤ) := by
    exact_mod_cast pow_digits10_le (by omega : num.natAbs ≠ 0)
  have hu_den : den < 10 ^ digits10 den.natAbs := by
    have h := lt_pow_digits10 den.natAbs
    have h2 : (den.natAbs : ℤ) < (10 : ℤ) ^ digits10 den.natAbs := by exact_mod_cast h
    rwa [Int.natAbs_of_nonneg hden.le] at h2
  have hl_den : (10 : ℤ) ^ (digits10 den.natAbs - 1) ≤ den := by
    have h := pow_digits10_le (by omega : den.natAbs ≠ 0)
    have h2 : (10 : ℤ) ^ (digits10 den.natAbs - 1) ≤ (den.natAbs : ℤ) := by
      exact_mod_cast h
    rwa [Int.natAbs_of_nonneg hden.le] at h2
  unfold fracDexp
  dsimp only
  split_ifs with hC
  · by_cases hk : digits10 den.natAbs ≤ digits10 num.natAbs
    · have e1 : (-(((digits10 num.natAbs : ℤ) - (digits10 den.natAbs : ℤ)) + 1)).toNat
          = 0 := by omega
      have e2 : (((digits10 num.natAbs : ℤ) - (digits10 den.natAbs : ℤ)) + 1).toNat
          = digits10 num.natAbs - digits10 den.natAbs + 1 := by omega
      rw [e1, e2, pow_zero, mul_one]
      have e3 : (10 : ℤ) ^ digits10 num.natAbs =
          10 ^ (digits10 den.natAbs - 1) *
            10 ^ (digits10 num.natAbs - digits10 den.natAbs + 1) := by
        rw [← pow_add]
        congr 1
        omega
      calc (num.natAbs : ℤ) < 10 ^ digits10 num.natAbs := hu_num
        _ = 10 ^ (digits10 den.natAbs - 1) *
              10 ^ (digits10 num.natAbs - digits10 den.natAbs + 1) := e3
        _ ≤ den * 10 ^ (digits10 num.natAbs - digits10 den.natAbs + 1) :=
            mul_le_mul_of_nonneg_right hl_den (by positivity)
    · push_neg at hk
      have e1 : (-(((digits10 num.natAbs : ℤ) - (digits10 den.natAbs : ℤ)) + 1)).toNat
          = digits10 den.natAbs - digits10 num.natAbs - 1 := by omega
      have e2 : (((digits10 num.natAbs : ℤ) - (digits10 den.natAbs : ℤ)) + 1).toNat
          = 0 := by omega
      rw [e1, e2, pow_zero, mul_one]
      have e3 : (10 : ℤ) ^ (digits10 den.natAbs - 1) =
          10 ^ digits10 num.natAbs *
            10 ^ (digits10 den.natAbs - digits10 num.natAbs - 1) := by
        rw [← pow_add]
        congr 1
        omega
      calc (num.natAbs : ℤ) * 10 ^ (digits10 den.natAbs - digits10 num.natAbs - 1)
          < 10 ^ digits10 num.natAbs *
              10 ^ (digits10 den.natAbs - digits10 num.natAbs - 1) :=
            mul_lt_mul_of_pos_right hu_num (by positivity)
        _ = 10 ^ (digits10 den.natAbs - 1) := e3.symm
        _ ≤ den := hl_den
  · push_neg at hC
    have e1 : (max (-((digits10 num.natAbs : ℤ) - (digits10 den.natAbs : ℤ))) 0).toNat
        = (-((digits10 num.natAbs : ℤ) - (digits10 den.natAbs : ℤ))).toNat := by omega
    have e2 : (max ((digits10 num.natAbs : ℤ) - (digits10 den.natAbs : ℤ)) 0).toNat
        = ((digits10 num.natAbs : ℤ) - (digits10 den.natAbs : ℤ)).toNat := by omega
    rw [e1, e2] at hC
    exact hC

theorem roundFrac_digits {num den : ℤ} {d : Dec} (hden : 0 < den)
    (h : roundFrac num den = .ok d) : digits10 d.c.natAbs ≤ 28 := by
  unfold roundFrac at h
  split at h
  · cases h
    decide
  · rename_i hnum
    dsimp only at h
    have hKlt := fracDexp_lt hden hnum
    have me1 : (max (-(fracDexp num den - 28)) 0).toNat = (-(fracDexp num den - 28)).toNat := by
      omega
    have me2 : (max (fracDexp num den - 28) 0).toNat = (fracDexp num den - 28).toNat := by
      omega
    rw [me1, me2] at h
    have hidm : (-(fracDexp num den - 28)).toNat =
        (-(fracDexp num den)).toNat +
          ((-(fracDexp num den - 28)).toNat - (-(fracDexp num den)).toNat) := by omega
    have hidk : (fracDexp num den).toNat +
          ((-(fracDexp num den - 28)).toNat - (-(fracDexp num den)).toNat) =
        (fracDexp num den - 28).toNat + 28 := by omega
    have h2 := mul_lt_mul_of_pos_right hKlt
      (pow_pos (by norm_num : (0:ℤ) < 10)
        ((-(fracDexp num den - 28)).toNat - (-(fracDexp num den)).toNat))
    rw [mul_assoc, mul_assoc, ← pow_add, ← pow_add, ← hidm, hidk, pow_add] at h2
    have h3 : (num.natAbs : ℤ) * 10 ^ (-(fracDexp num den - 28)).toNat <
        10 ^ 28 * (den * 10 ^ (fracDexp num den - 28).toNat) := by
      calc (num.natAbs : ℤ) * 10 ^ (-(fracDexp num den - 28)).toNat <
          den * (10 ^ (fracDexp num den - 28).toNat * 10 ^ 28) := h2
        _ = 10 ^ 28 * (den * 10 ^ (fracDexp num den - 28).toNat) := by ring
    have hb : (0 : ℤ) < den * 10 ^ (fracDexp num den - 28).toNat := by positivity
    have hP : (0 : ℤ) ≤ 10 ^ (-(fracDexp num den - 28)).toNat := by positivity
    have hxle : num * 10 ^ (-(fracDexp num den - 28)).toNat ≤
        (num.natAbs : ℤ) * 10 ^ (-(fracDexp num den - 28)).toNat :=
      mul_le_mul_of_nonneg_right Int.le_natAbs hP
    have hxge : -((num.natAbs : ℤ) * 10 ^ (-(fracDexp num den - 28)).toNat) ≤
        num * 10 ^ (-(fracDexp num den - 28)).toNat := by
      rw [← neg_mul]
      exact mul_le_mul_of_nonneg_right (by omega) hP
    have hlo : -(10 ^ 28 * (den * 10 ^ (fracDexp num den - 28).toNat)) <
        num * 10 ^ (-(fracDexp num den - 28)).toNat := by
      omega
    have hhi : num * 10 ^ (-(fracDexp num den - 28)).toNat <
        10 ^ 28 * (den * 10 ^ (fracDexp num den - 28).toNat) := by
      omega
    have hbd := halfEvenDiv_bound hb hlo hhi
    exact round_tail hbd.1 hbd.2 h

theorem pos_div_gcd {a b : ℤ} (hb : 0 < b)
    (hg : ((Nat.gcd a.natAbs b.natAbs : ℕ) : ℤ) ≠ 0) :
    0 < b / ((Nat.gcd a.natAbs b.natAbs : ℕ) : ℤ) := by
  set g : ℤ := ((Nat.gcd a.natAbs b.natAbs : ℕ) : ℤ) with hgdef
  have hgpos : (0 : ℤ) < g := by
    have : (0 : ℤ) ≤ g := by rw [hgdef]; positivity
    omega
  have hdvd : g ∣ b := by
    have hnat := Nat.gcd_dvd_right a.natAbs b.natAbs
    have h2 : g ∣ (b.natAbs : ℤ) := by
      rw [hgdef]
      exact Int.natCast_dvd_natCast.mpr hnat
    rwa [Int.natAbs_of_nonneg hb.le] at h2
  obtain ⟨c, hc⟩ := hdvd
  have hcpos : 0 < c := by nlinarith
  rw [hc, Int.mul_ediv_cancel_left c hg]
  exact hcpos

theorem fracReduce_pos {num den : ℤ} (h : den ≠ 0) : 0 < (fracReduce num den).2 := by
  unfold fracReduce
  dsimp only
  by_cases hneg : den < 0
  · simp only [if_pos hneg]
    split_ifs with hg
    · dsimp only
      omega
    · exact pos_div_gcd (by omega) hg
  · simp only [if_neg hneg]
    split_ifs with hg
    · dsimp only
      omega
    · exact pos_div_gcd (by omega) hg

theorem exact_pad_digits {m : Dec} {pad : ℤ} (hd : digits10 m.c.natAbs ≤ 28)
    (hpad : pad ≤ 28 - (digits10 m.c.natAbs : ℤ)) :
    digits10 (m.c * 10 ^ pad.toNat).natAbs ≤ 28 := by
  rcases eq_or_ne m.c 0 with h0 | h0
  · rw [h0, zero_mul]
    decide
  · rw [Int.natAbs_mul, Int.natAbs_pow]
    have h10 : (10 : ℤ).natAbs = 10 := rfl
    rw [h10, digits10_mul_pow (by omega : m.c.natAbs ≠ 0)]
    omega

theorem decDivFrac_digits {num den ideal : ℤ} {d : Dec} (hden : den ≠ 0)
    (h : decDivFrac num den ideal = .ok d) : digits10 d.c.natAbs ≤ 28 := by
  have hpos : 0 < (fracReduce num den).2 := fracReduce_pos hden
  unfold decDivFrac at h
  dsimp only at h
  split at h
  · split at h
    · rename_i hd28
      cases checkOverflow_ok h
      dsimp only
      exact exact_pad_digits hd28 (by omega)
    · exact roundFrac_digits hpos h
  · exact roundFrac_digits hpos h

theorem decFromFracExact_digits {num den : ℤ} {d : Dec} (hden : den ≠ 0)
    (h : decFromFracExact num den = .ok d) : digits10 d.c.natAbs ≤ 28 := by
  have hpos : 0 < (fracReduce num den).2 := fracReduce_pos hden
  unfold decFromFracExact at h
  dsimp only at h
  split at h
  · split at h
    · rename_i hd28
      cases checkOverflow_ok h
      exact hd28
    · exact roundFrac_digits hpos h
  · exact roundFrac_digits hpos h

theorem qd_pos (d : Dec) : 0 < d.qd := by
  unfold Dec.qd
  split <;> positivity

theorem qn_ne_zero {d : Dec} (h : d.c ≠ 0) : d.qn ≠ 0 := by
  unfold Dec.qn
  split
  · exact mul_ne_zero h (by positivity)
  · exact h

theorem decDiv_digits {a b d : Dec} (h : decDiv a b = .ok d) :
    digits10 d.c.natAbs ≤ 28 := by
  unfold decDiv at h
  split at h
  · split at h <;> cases h
  · split at h
    · cases h
      dsimp only
      decide
    · rename_i hb ha
      exact decDivFrac_digits (mul_ne_zero (qd_pos a).ne' (qn_ne_zero hb)) h

theorem decAdd_digits {a b d : Dec} (h : decAdd a b = .ok d) :
    digits10 d.c.natAbs ≤ 28 := roundDec_digits h

theorem decSub_digits {a b d : Dec} (h : decSub a b = .ok d) :
    digits10 d.c.natAbs ≤ 28 := roundDec_digits h

theorem decMul_digits {a b d : Dec} (h : decMul a b = .ok d) :
    digits10 d.c.natAbs ≤ 28 := roundDec_digits h

theorem decPow_digits {a b d : Dec} (h : decPow a b = .ok d) :
    digits10 d.c.natAbs ≤ 28 := by
  unfold decPow at h
  split at h
  · rename_i n hn
    split at h
    · split at h
      · cases h
        decide
      · split at h <;> cases h
    · split at h
      · exact roundDec_digits h
      · rename_i ha hneg
        exact decFromFracExact_digits (pow_ne_zero _ (qn_ne_zero ha)) h
  · split at h
    · split at h
      · cases h
        decide
      · cases h
    · split at h
      · cases h
      · cases h

theorem pyAdd_digits {a b : PyVal} {d : Dec} (h : pyAdd a b = .ok (.decv d)) :
    digits10 d.c.natAbs ≤ 28 := by
  unfold pyAdd at h
  split at h
  · cases h
  · obtain ⟨w, hw1, hw2⟩ := okBind h
    cases hw2
    exact decAdd_digits hw1

theorem pySub_digits {a b : PyVal} {d : Dec} (h : pySub a b = .ok (.decv d)) :
    digits10 d.c.natAbs ≤ 28 := by
  unfold pySub at h
  split at h
  · cases h
  · obtain ⟨w, hw1, hw2⟩ := okBind h
    cases hw2
    exact decSub_digits hw1

theorem pyMul_digits {a b : PyVal} {d : Dec} (h : pyMul a b = .ok (.decv d)) :
    digits10 d.c.natAbs ≤ 28 := by
  unfold pyMul at h
  split at h
  · cases h
  · obtain ⟨w, hw1, hw2⟩ := okBind h
    cases hw2
    exact decMul_digits hw1

theorem pyDiv_digits {a b : PyVal} {d : Dec} (h : pyDiv a b = .ok (.decv d)) :
    digits10 d.c.natAbs ≤ 28 := by
  obtain ⟨w, hw1, hw2⟩ := okBind h
  cases hw2
  exact decDiv_digits hw1

theorem pyPow_digits {a b : PyVal} {d : Dec} (h : pyPow a b = .ok (.decv d)) :
    digits10 d.c.natAbs ≤ 28 := by
  obtain ⟨w, hw1, hw2⟩ := okBind h
  cases hw2
  exact decPow_digits hw1

/-! ## Parse-shape helpers for the claim theorems -/

theorem bind_split {m : Except PyErr PyVal} {k : PyVal × List Tok → Except PyErr PyVal}
    (hk : ∀ x, k (x, []) = .ok x) :
    Except.bind (Except.bind m (fun cv => Except.ok (cv, ([] : List Tok)))) k = m := by
  cases m with
  | error e => rfl
  | ok a => exact hk a

theorem parseResult_congr {f g : ℕ} {ts us : List Tok}
    (hf : 3 * ts.length + 3 ≤ f) (hg : 3 * us.length + 3 ≤ g)
    (h : parseP f 0 ts = parseP g 0 us) :
    parseResult f ts = parseResult g us := by
  unfold parseResult
  rw [h]
  refine bindCongr2 ?_
  intro v r hok
  have hlg : r.length < us.length := parseP_len hok
  have hlf : r.length < ts.length := parseP_len (h ▸ hok)
  dsimp only
  cases r with
  | nil => rfl
  | cons t r2 =>
    cases t <;> try rfl
    case cmp op =>
      dsimp only
      simp only [List.length_cons] at hlf hlg
      rw [@parseP_fuel f g 0 r2 (by omega) (by omega)]

theorem c2_headL (f : ℕ) (v : PyVal) (ts : List Tok) :
    parseP (f + 3) 0 (.minus :: .num v :: .pow :: ts) =
    Except.bind (pyNeg v) (fun nv => climb (f + 2) 0 nv (.pow :: ts)) := rfl

theorem c2_headR (f : ℕ) (v : PyVal) (ts : List Tok) :
    parseP (f + 4) 0 (.lparen :: .minus :: .num v :: .rparen :: .pow :: ts) =
    Except.bind (pyNeg v) (fun nv => climb (f + 3) 0 nv (.pow :: ts)) := by
  have h : parseP (f + 4) 0 (.lparen :: .minus :: .num v :: .rparen :: .pow :: ts) =
      Except.bind (Except.bind (pyNeg v)
          (fun nv => Except.ok (nv, Tok.rparen :: Tok.pow :: ts)))
        (fun x => match x.2 with
          | Tok.rparen :: r2 => climb (f + 3) 0 x.1 r2
          | _ => Except.error PyErr.synErr) := rfl
  rw [h]
  cases pyNeg v with
  | error e => rfl
  | ok a => rfl

/-! ## Lexer helpers for the claim theorems -/

theorem takeWhile_append_all {p : Char → Bool} {ds : List Char}
    (h : ∀ c ∈ ds, p c = true) (es : List Char) :
    (ds ++ es).takeWhile p = ds ++ es.takeWhile p := by
  induction ds with
  | nil => rfl
  | cons d ds ih =>
    have hd : p d = true := h d (by simp)
    simp only [List.cons_append, List.takeWhile_cons, hd, if_true]
    rw [ih (fun c hc => h c (by simp [hc]))]

theorem matchNumber_sep {ds es : List Char} (h : ∀ c ∈ ds, c.isDigit = true) :
    matchNumber (ds ++ '.' :: es) = matchNumber (ds ++ ',' :: es) := by
  have hdot : Char.isDigit '.' = false := by decide
  have hcom : Char.isDigit ',' = false := by decide
  have hla : numberLookahead (ds ++ '.' :: es) = numberLookahead (ds ++ ',' :: es) := by
    cases ds with
    | nil =>
      cases es with
      | nil => rfl
      | cons e es2 => simp [numberLookahead]
    | cons a ds2 =>
      have ha : a.isDigit = true := h a (by simp)
      simp [numberLookahead, ha]
  have htw : ∀ sep : Char, sep.isDigit = false →
      (ds ++ sep :: es).takeWhile Char.isDigit = ds := by
    intro sep hsep
    rw [takeWhile_append_all h, List.takeWhile_cons, hsep]
    simp
  unfold matchNumber
  rw [hla]
  split
  · rw [htw '.' hdot, htw ',' hcom]
    dsimp only
    have hdr : ∀ sep : Char, (ds ++ sep :: es).drop ds.length = sep :: es := by
      intro sep
      exact List.drop_left ds (sep :: es)
    rw [hdr '.', hdr ',']
    have hfs : fracScan ('.' :: es) = fracScan (',' :: es) := by
      simp [fracScan]
    rw [hfs]
    have hfr2 : (fracScan (',' :: es)).2 = (es.takeWhile Char.isDigit).length + 1 := by
      simp [fracScan]
    rw [hfr2]
    simp only [List.drop_succ_cons]
  · rfl

theorem countCmp_cons (t : Tok) (ts : List Tok) :
    countCmp (t :: ts) = countCmp ts + (if isCmpTok t then 1 else 0) :=
  List.countP_cons isCmpTok t ts

/-! ## Lexer lemmas for the comma claims -/

theorem matchNumber_comma_digit (c : Char) (cs : List Char) (hc : c.isDigit = true) :
    ∃ v n, matchNumber (',' :: c :: cs) = some (v, n) ∧ 2 ≤ n := by
  have hla : numberLookahead (',' :: c :: cs) = true := by
    simp [numberLookahead, hc]
  have hip : (',' :: c :: cs).takeWhile Char.isDigit = [] := by
    simp [List.takeWhile_cons, show Char.isDigit ',' = false from rfl]
  have hfs : fracScan (',' :: c :: cs) =
      (some (c :: cs.takeWhile Char.isDigit), (c :: cs.takeWhile Char.isDigit).length + 1) := by
    simp [fracScan, List.takeWhile_cons, hc]
  unfold matchNumber
  rw [if_pos hla]
  dsimp only
  rw [hip]
  dsimp only [List.length_nil, List.drop_zero]
  rw [hfs]
  refine ⟨_, _, rfl, ?_⟩
  simp only [List.length_cons]
  omega

theorem matchNumber_digits_comma (ds : List Char) (c : Char) (es : List Char)
    (hne : ds ≠ []) (hds : ∀ x ∈ ds, x.isDigit = true) (hc : c.isDigit = true) :
    ∃ v n, matchNumber (ds ++ ',' :: c :: es) = some (v, n) ∧ ds.length + 2 ≤ n := by
  obtain ⟨a, ds2, rfl⟩ : ∃ a ds2, ds = a :: ds2 := by
    cases ds with
    | nil => exact absurd rfl hne
    | cons a ds2 => exact ⟨a, ds2, rfl⟩
  have hla : numberLookahead ((a :: ds2) ++ ',' :: c :: es) = true := by
    simp [numberLookahead, hds a (by simp)]
  have hip : ((a :: ds2) ++ ',' :: c :: es).takeWhile Char.isDigit = a :: ds2 := by
    rw [takeWhile_append_all hds]
    simp [List.takeWhile_cons, show Char.isDigit ',' = false from rfl]
  have hfs : fracScan (',' :: c :: es) =
      (some (c :: es.takeWhile Char.isDigit), (c :: es.takeWhile Char.isDigit).length + 1) := by
    simp [fracScan, List.takeWhile_cons, hc]
  unfold matchNumber
  rw [if_pos hla]
  dsimp only
  rw [hip]
  have hdr : ((a :: ds2) ++ ',' :: c :: es).drop (a :: ds2).length = ',' :: c :: es :=
    List.drop_left (a :: ds2) (',' :: c :: es)
  rw [hdr, hfs]
  refine ⟨_, _, rfl, ?_⟩
  simp only [List.length_cons]
  omega

theorem scanOne_comma_sep (cs : List Char)
    (h : ∀ c cs2, cs = c :: cs2 → c.isDigit = false) :
    scanOne (',' :: cs) = .ok (some .comma, 1) := by
  have hmn : matchNumber (',' :: cs) = none := by
    unfold matchNumber
    rw [if_neg ?hla]
    case hla =>
      cases cs with
      | nil => decide
      | cons e es =>
        have he := h e es rfl
        simp [numberLookahead, he]
  unfold scanOne
  rw [hmn]
  rfl

theorem scanOne_comma_digit (c : Char) (cs : List Char) (v : Option Tok) (n : ℕ)
    (hc : c.isDigit = true) (hs : scanOne (',' :: c :: cs) = .ok (v, n)) :
    (∃ d, v = some (.num d)) ∧ 2 ≤ n := by
  obtain ⟨v0, n0, hm, hn⟩ := matchNumber_comma_digit c cs hc
  unfold scanOne at hs
  rw [hm] at hs
  cases v0 with
  | error e => exact absurd hs (by simp)
  | ok val =>
    dsimp only at hs
    cases hs
    exact ⟨⟨val, rfl⟩, hn⟩

/-! ## The claims -/

set_option maxRecDepth 40000
set_option exponentiation.threshold 5000

/-- C1: refuted as stated.  The spaced surface forms of a two-argument call
agree (`hypot 3 4`, `hypot(4, 3)`, …, all `Decimal('5')`), but
`"hypot(3,4)"` is not one of them: `t_NUMBER`\'s lookahead makes a comma
directly before a digit part of a numeric literal, so `"hypot(3,4)"`
tokenizes as `hypot ( 3.4 )` — a one-argument call returning
`Decimal(float(3.4)) ≈ 3.4`, not 5. -/
theorem C1_counterexample :
    evaluate "hypot(3,4)" =
      .ok (.decv ⟨3399999999999999911182158029987476766109466552734375, -51⟩) ∧
    evaluate "hypot 3 4" = .ok (.decv ⟨5, 0⟩) ∧
    lexChars ("hypot(3,4)".data) =
      .ok [.name "hypot", .lparen, .num (.decv ⟨34, -1⟩), .rparen] ∧
    (Except.ok (PyVal.decv ⟨3399999999999999911182158029987476766109466552734375, -51⟩) :
      Except PyErr PyVal) ≠ .ok (.decv ⟨5, 0⟩) :=
  ⟨rfl, rfl, rfl, by simp⟩

/-- C1 (amended): at the token level, the four call shapes that actually reach
the two-argument registry call — `NAME ( e , e )`, `NAME ( e e )`,
`NAME e , e` and `NAME e e` — all evaluate to exactly `funcCall name [arg1,
arg2]`; concretely every spaced spelling of the hypot call returns
`Decimal('5')`. -/
theorem C1_call_forms :
    (∀ (s : String) (v w : PyVal),
      calcTokens [.name s, .lparen, .num v, .comma, .num w, .rparen] = funcCall s [v, w] ∧
      calcTokens [.name s, .lparen, .num v, .num w, .rparen] = funcCall s [v, w] ∧
      calcTokens [.name s, .num v, .comma, .num w] = funcCall s [v, w] ∧
      calcTokens [.name s, .num v, .num w] = funcCall s [v, w]) ∧
    evaluate "hypot(4, 3)" = .ok (.decv ⟨5, 0⟩) ∧
    evaluate "hypot(4 3)" = .ok (.decv ⟨5, 0⟩) ∧
    evaluate "hypot 4, 3" = .ok (.decv ⟨5, 0⟩) ∧
    evaluate "hypot 4 3" = .ok (.decv ⟨5, 0⟩) :=
  ⟨fun s v w =>
    ⟨bind_split (fun x => rfl), bind_split (fun x => rfl),
     bind_split (fun x => rfl), bind_split (fun x => rfl)⟩,
   rfl, rfl, rfl, rfl⟩

/-- C2: confirmed.  Unary sign binds tighter than power: `-3 ** 2 = 9`,
`-3 ** 3 = -27` (and `2 + 3 * 5 = 17`); in general prefixing `- n ** …` is
token-for-token equivalent to `( - n ) ** …`, for any literal value and any
continuation of the token stream. -/
theorem C2_unary_minus_power :
    evaluate "-3 ** 2" = .ok (.decv ⟨9, 0⟩) ∧
    evaluate "-3 ** 3" = .ok (.decv ⟨-27, 0⟩) ∧
    evaluate "2 + 3 * 5" = .ok (.intv 17) ∧
    evaluate "-(3 ** 2)" = .ok (.decv ⟨-9, 0⟩) ∧
    (Except.ok (PyVal.decv ⟨9, 0⟩) : Except PyErr PyVal) ≠ .ok (.decv ⟨-9, 0⟩) ∧
    ∀ (v : PyVal) (ts : List Tok),
      calcTokens (.minus :: .num v :: .pow :: ts) =
      calcTokens (.lparen :: .minus :: .num v :: .rparen :: .pow :: ts) := by
  refine ⟨rfl, rfl, rfl, rfl, by simp, ?_⟩
  intro v ts
  unfold calcTokens
  refine parseResult_congr le_rfl le_rfl ?_
  have e1 : 3 * (Tok.minus :: .num v :: .pow :: ts).length + 3 = 3 * ts.length + 9 + 3 := by
    simp only [List.length_cons]
    ring
  have e2 : 3 * (Tok.lparen :: .minus :: .num v :: .rparen :: .pow :: ts).length + 3 =
      3 * ts.length + 14 + 4 := by
    simp only [List.length_cons]
    ring
  rw [e1, e2, c2_headL, c2_headR]
  refine bindCongr ?_
  intro nv hnv
  exact (parse_fuel_all _).2.2.2 _ 0 nv _ (by simp only [List.length_cons]; omega)
    (by simp only [List.length_cons]; omega)

/-- C5: confirmed.  A comparison is not an expression: chained comparisons
and comparisons inside arithmetic are syntax errors; expression parsing never
consumes a comparison token, and any token stream holding two or more
comparison tokens is rejected. -/
theorem C5_comparisons :
    evaluate "2 < 3" = .ok (.boolv true) ∧
    evaluate "2 < 1" = .ok (.boolv false) ∧
    evaluate "1 < 2 < 3" = .error .synErr ∧
    evaluate "2 + (5 < 6)" = .error .synErr ∧
    evaluate "1 < 2 == 3" = .error .synErr ∧
    (∀ f mn ts v r, parseP f mn ts = .ok (v, r) → countCmp r = countCmp ts) ∧
    (∀ ts : List Tok, 2 ≤ countCmp ts → ∃ e, calcTokens ts = .error e) := by
  refine ⟨rfl, rfl, rfl, rfl, rfl, fun f mn ts v r h => parseP_cc h, ?_⟩
  intro ts h2
  cases hres : calcTokens ts with
  | error e => exact ⟨e, rfl⟩
  | ok val =>
    exfalso
    unfold calcTokens parseResult at hres
    obtain ⟨vr, h1, hk⟩ := okBind hres
    obtain ⟨v, r⟩ := vr
    have hcc : countCmp r = countCmp ts := parseP_cc h1
    dsimp only at hk
    cases r with
    | nil =>
      have h0 : countCmp ([] : List Tok) = 0 := rfl
      omega
    | cons t r2 =>
      cases t
      case cmp op =>
        have hc1 := countCmp_cons (.cmp op) r2
        have hct : isCmpTok (.cmp op) = true := rfl
        rw [hct, if_pos rfl] at hc1
        dsimp only at hk
        obtain ⟨wr, hg1, hg2⟩ := okBind hk
        obtain ⟨w, r3⟩ := wr
        have hcc3 : countCmp r3 = countCmp r2 := parseP_cc hg1
        dsimp only at hg2
        cases r3 with
        | nil =>
          have h0 : countCmp ([] : List Tok) = 0 := rfl
          omega
        | cons u r4 => exact Except.noConfusion hg2
      all_goals
        dsimp only at hk
        exact Except.noConfusion hk

/-- C7: confirmed.  A NAME neither in `FUNCTIONS` nor in `ALLOWED_VALUES`
fails: applied to any argument list it raises the unknown-function error
(whatever the argument count), and standing bare it raises the unknown-value
error. -/
theorem C7_unknown :
    evaluate "foo(1)" = .error (.unknownFunction "foo") ∧
    evaluate "foo" = .error (.unknownValue "foo") ∧
    evaluate "foo(1, 2)" = .error (.unknownFunction "foo") ∧
    (∀ (s : String) (args : List PyVal), s ∉ FUNCTION_NAMES →
      funcCall s args = .error (.unknownFunction s)) ∧
    (∀ s : String, lookupConst s = none →
      calcTokens [.name s] = .error (.unknownValue s)) := by
  refine ⟨rfl, rfl, rfl, ?_, ?_⟩
  · intro s args h
    unfold funcCall
    rw [if_neg h]
  · intro s h
    simp only [calcTokens, List.length_cons, List.length_nil]
    simp only [parseResult, parseP, parseName, h]
    rfl

/-- C8: confirmed.  `calc` (the spec\'s `evaluate`) strips and lower-cases its
input, then tokenizes and parses: it is a pure function of the normalized
text — any two inputs with the same normalized form give identical results,
so repeated calls agree and nothing mutates between calls. -/
theorem C8_pure :
    (∀ s : String, evaluate s =
      Except.bind (lexChars ((stripChars s.data).map Char.toLower)) calcTokens) ∧
    (∀ s t : String, normalize s.data = normalize t.data → evaluate s = evaluate t) ∧
    evaluate "  2 + 3  " = evaluate "2 + 3" ∧
    evaluate "HYPOT 3 4" = evaluate "hypot 3 4" ∧
    evaluate "2 + 3" = .ok (.intv 5) := by
  refine ⟨fun s => rfl, ?_, rfl, rfl, rfl⟩
  intro s t h
  unfold evaluate
  rw [h]

/-- C9: refuted as stated.  A malformed exponent such as `"1e2.3"` does make
evaluation fail, but not as a lexing error: `RE_NUMBER` simply stops before
the stray `.3`, the lexer happily returns two NUMBER tokens (100 and 0.3),
and the failure is the parser\'s syntax error. -/
theorem C9_counterexample :
    lexChars ("1e2.3".data) = .ok [.num (.decv ⟨100, 0⟩), .num (.decv ⟨3, -1⟩)] ∧
    evaluate "1e2.3" = .error .synErr :=
  ⟨rfl, rfl⟩

/-- C9 (amended): a numeric literal with a junk suffix after its exponent
lexes as that literal followed by a second literal, and two adjacent NUMBER
tokens are always a parser syntax error, never a lexer error. -/
theorem C9_malformed_exponent :
    (∀ (v w : PyVal) (ts : List Tok),
      calcTokens (.num v :: .num w :: ts) = .error .synErr) ∧
    evaluate "1e2.3" = .error .synErr ∧
    evaluate "1e2" = .ok (.decv ⟨100, 0⟩) :=
  ⟨fun v w ts => rfl, rfl, rfl⟩

/-- C3: refuted as stated.  Machine-integer `+`, `-`, `*` are exact and
unbounded: `100000000000001 * 100000000000001` is a 29-significant-digit
integer that flows unrounded into the subtraction, so the whole expression
returns 1 (context rounding of the product would have given 0). -/
theorem C3_counterexample :
    evaluate "100000000000001 * 100000000000001 - 10000000000000200000000000000" =
      .ok (.intv 1) ∧
    pyMul (.intv 100000000000001) (.intv 100000000000001) =
      .ok (.intv 10000000000000200000000000001) ∧
    28 < digits10 (10000000000000200000000000001 : ℤ).natAbs :=
  ⟨rfl, rfl, by decide⟩

/-- C3 (amended): every arithmetic operation that produces a `Decimal` — any
division or power, and `+`/`-`/`*` with at least one decimal operand — yields
a coefficient of at most 28 significant digits, while `+`/`-`/`*` on two
machine ints are exact unbounded integer arithmetic, never rounded. -/
theorem C3_rounding :
    (∀ a b d, pyAdd a b = .ok (.decv d) → digits10 d.c.natAbs ≤ 28) ∧
    (∀ a b d, pySub a b = .ok (.decv d) → digits10 d.c.natAbs ≤ 28) ∧
    (∀ a b d, pyMul a b = .ok (.decv d) → digits10 d.c.natAbs ≤ 28) ∧
    (∀ a b d, pyDiv a b = .ok (.decv d) → digits10 d.c.natAbs ≤ 28) ∧
    (∀ a b d, pyPow a b = .ok (.decv d) → digits10 d.c.natAbs ≤ 28) ∧
    (∀ m n : ℤ, pyAdd (.intv m) (.intv n) = .ok (.intv (m + n)) ∧
      pySub (.intv m) (.intv n) = .ok (.intv (m - n)) ∧
      pyMul (.intv m) (.intv n) = .ok (.intv (m * n))) :=
  ⟨fun a b d h => pyAdd_digits h, fun a b d h => pySub_digits h,
   fun a b d h => pyMul_digits h, fun a b d h => pyDiv_digits h,
   fun a b d h => pyPow_digits h, fun m n => ⟨rfl, rfl, rfl⟩⟩

/-- C4: refuted as stated.  `better_factorial` checks the `> 100` cap before
integrality, so the non-integral operand 101.5 fails with OverflowError, not
the domain error the claim promises for every non-integral operand; and an
integral `Decimal` operand within the cap (e.g. `2.0`) reaches
`math.factorial`, which rejects it with a TypeError instead of returning the
factorial the claim promises for every non-negative integral operand. -/
theorem C4_counterexample :
    evaluate "101.5!" = .error .overflowErr ∧
    decIsInt ⟨1015, -1⟩ = none ∧
    evaluate "2.0!" = .error .typeErr ∧
    (PyErr.overflowErr = PyErr.domainErr → False) :=
  ⟨rfl, rfl, rfl, fun h => PyErr.noConfusion h⟩

/-- C4 (amended): `0! = 1`; the cap check runs first (any operand whose value
exceeds 100 gets OverflowError, integral or not); then non-integral values
get the domain error; a machine-int operand that passes both is computed as
`n!` when `0 ≤ n ≤ 100` and rejected with the domain error when negative,
while an integral `Decimal` operand is rejected by `math.factorial` with a
TypeError. -/
theorem C4_factorial :
    evaluate "0!" = .ok (.intv 1) ∧
    evaluate "2.3!" = .error .domainErr ∧
    evaluate "101!" = .error .overflowErr ∧
    evaluate "-5!" = .error .domainErr ∧
    (∀ n : ℕ, n ≤ 100 → pyFactorial (.intv n) = .ok (.intv (Nat.factorial n))) ∧
    (∀ n : ℤ, n < 0 → pyFactorial (.intv n) = .error .domainErr) ∧
    (∀ n : ℤ, 100 < n → pyFactorial (.intv n) = .error .overflowErr) ∧
    (∀ d : Dec, 100 * d.qd < d.qn → pyFactorial (.decv d) = .error .overflowErr) ∧
    (∀ d : Dec, d.qn ≤ 100 * d.qd → d.qn % d.qd ≠ 0 →
      pyFactorial (.decv d) = .error .domainErr) ∧
    (∀ d : Dec, d.qn ≤ 100 * d.qd → d.qn % d.qd = 0 →
      pyFactorial (.decv d) = .error .typeErr) := by
  refine ⟨rfl, rfl, rfl, rfl, ?_, ?_, ?_, ?_, ?_, ?_⟩
  · intro n hn
    unfold pyFactorial MAX_FACTORIAL_INP
    dsimp only [valFrac]
    rw [if_neg (by omega), if_neg (by simp [Int.emod_one])]
    rw [if_neg (by omega)]
    have he : (((n : ℤ)) / 1).toNat = n := by omega
    rw [he]
  · intro n hn
    unfold pyFactorial MAX_FACTORIAL_INP
    dsimp only [valFrac]
    rw [if_neg (by omega), if_neg (by simp [Int.emod_one])]
    rw [if_pos (by omega)]
  · intro n hn
    unfold pyFactorial MAX_FACTORIAL_INP
    dsimp only [valFrac]
    rw [if_pos (by omega)]
  · intro d hd
    unfold pyFactorial MAX_FACTORIAL_INP
    dsimp only [valFrac]
    rw [if_pos hd]
  · intro d hd hnd
    unfold pyFactorial MAX_FACTORIAL_INP
    dsimp only [valFrac]
    rw [if_neg (by omega), if_pos hnd]
  · intro d hd hnd
    unfold pyFactorial MAX_FACTORIAL_INP
    dsimp only [valFrac]
    rw [if_neg (by omega), if_neg (by simp [hnd])]

/-- C6: refuted as stated.  The literal\'s fractional part is added through a
context division `Decimal(frac) / 10 ** digits`, which rounds to 28
significant digits: the 29-digit literal `0,99999999999999999999999999995`
evaluates to exactly 1, not to the claimed
`fractional_digits / 10 ^ digit_count`. -/
theorem C6_counterexample :
    evaluate "0,99999999999999999999999999995" = .ok (.decv ⟨10 ^ 27, -27⟩) ∧
    (PyVal.decv ⟨10 ^ 27, -27⟩).toQ = 1 ∧
    (99999999999999999999999999995 : ℚ) / 10 ^ 29 ≠ 1 := by
  refine ⟨rfl, ?_, by norm_num⟩
  show ((10 ^ 27 : ℤ) : ℚ) * (10 : ℚ) ^ (-27 : ℤ) = 1
  rw [Int.cast_pow, show ((10 : ℤ) : ℚ) = 10 from by norm_num,
    ← zpow_natCast (10 : ℚ) 27, ← zpow_add₀ (by norm_num : (10 : ℚ) ≠ 0)]
  norm_num

/-- C6 (amended): the two decimal separators are interchangeable inside any
literal (`matchNumber` gives the same token for `.` and `,` after any run of
digits), `2,3` and `2.3` both evaluate to the decimal 2.3, and a literal with
no fractional part and no exponent is the exact machine int of its digits. -/
theorem C6_literal :
    (∀ ds es : List Char, (∀ c ∈ ds, c.isDigit = true) →
      matchNumber (ds ++ '.' :: es) = matchNumber (ds ++ ',' :: es)) ∧
    evaluate "2,3" = evaluate "2.3" ∧
    evaluate "2.3" = .ok (.decv ⟨23, -1⟩) ∧
    (∀ ip : List Char, numLitValue ip none none = .ok (.intv (digitsVal ip))) :=
  ⟨fun ds es h => matchNumber_sep h, rfl, rfl, fun ip => rfl⟩

/-- C10: confirmed.  A comma immediately followed by a digit is always
consumed inside a NUMBER token — at the start of a literal (`,3`) with at
least two characters consumed, or as the fractional separator after a digit
run with the whole span consumed — and a standalone COMMA token arises
exactly when no digit follows the comma. -/
theorem C10_comma :
    (∀ (c : Char) (cs : List Char), c.isDigit = true →
      ∃ v n, matchNumber (',' :: c :: cs) = some (v, n) ∧ 2 ≤ n) ∧
    (∀ (ds : List Char) (c : Char) (es : List Char), ds ≠ [] →
      (∀ x ∈ ds, x.isDigit = true) → c.isDigit = true →
      ∃ v n, matchNumber (ds ++ ',' :: c :: es) = some (v, n) ∧ ds.length + 2 ≤ n) ∧
    (∀ cs : List Char, (∀ c cs2, cs = c :: cs2 → c.isDigit = false) →
      scanOne (',' :: cs) = .ok (some .comma, 1)) ∧
    (∀ (c : Char) (cs : List Char) (v : Option Tok) (n : ℕ), c.isDigit = true →
      scanOne (',' :: c :: cs) = .ok (v, n) → (∃ d, v = some (.num d)) ∧ 2 ≤ n) ∧
    lexChars ("3,4".data) = .ok [.num (.decv ⟨34, -1⟩)] ∧
    lexChars ("2 , 3".data) = .ok [.num (.intv 2), .comma, .num (.intv 3)] :=
  ⟨matchNumber_comma_digit, matchNumber_digits_comma, scanOne_comma_sep,
   scanOne_comma_digit, rfl, rfl⟩

end SimpleCalc
